import Mathlib

/-!
# Verification of the dnote search snippet pipeline

Shallow embedding of `src/pkg/cli/cmd/search/search.go`.

Go byte strings are modelled as `List Char`, one `Char` per byte (the
bodies and phrases considered are ASCII, where Go's `strings.ToLower`
acts byte by byte).  Go `int` variables that the loop can drive negative
(`s`, `e`, `idx`) are modelled as `Int`.  A Go slice expression `b[i:j]`
panics unless `0 ≤ i ≤ j ≤ len(b)`; `goSlice` returns `none` exactly
then, and `RunRes.oob` models the abort.  The `for idx > -1` loop is
given explicit fuel; `RunRes.timeout` marks fuel exhaustion (the Go
loop not having terminated within that many iterations).
-/

namespace Dnote

open List

abbrev Str := List Char

/-- Byte-level case folding, as Go `strings.ToLower` acts on ASCII. -/
def toLowerChar (c : Char) : Char :=
  if 'A' ≤ c ∧ c ≤ 'Z' then Char.ofNat (c.toNat + 32) else c

/-- `strings.ToLower` on an ASCII byte string. -/
def strToLower (s : Str) : Str := s.map toLowerChar

/-- `strings.Index(s, p)`: position of the first occurrence of `p` in
`s`, `none` for Go's `-1`. -/
def strIndex : Str → Str → Option Nat
  | [], p => if p.isPrefixOf [] then some 0 else none
  | c :: t, p =>
      if p.isPrefixOf (c :: t) then some 0 else (strIndex t p).map (· + 1)

/-- `indexAt` from search.go: `strings.Index(s[n:], key)` shifted by `n`.
The outer `Option` models the panic of `s[n:]` when `n` is out of range;
the inner `Option Nat` is Go's `-1`-or-index result. -/
def indexAt (s p : Str) (n : Int) : Option (Option Nat) :=
  if 0 ≤ n ∧ n ≤ (s.length : Int) then
    some ((strIndex (s.drop n.toNat) p).map (· + n.toNat))
  else none

/-- Go slice `s[a:b]`: defined iff `0 ≤ a ≤ b ≤ len(s)`. -/
def goSlice (s : Str) (a b : Int) : Option Str :=
  if 0 ≤ a ∧ a ≤ b ∧ b ≤ (s.length : Int) then
    some ((s.drop a.toNat).take (b - a).toNat)
  else none

/-- The literal `"<dnotehl>"` (9 bytes). -/
def hbMark : Str := ['<', 'd', 'n', 'o', 't', 'e', 'h', 'l', '>']

/-- The literal `"</dnotehl>"` (10 bytes). -/
def heMark : Str := ['<', '/', 'd', 'n', 'o', 't', 'e', 'h', 'l', '>']

/-- The literal `"..."`. -/
def dotsMark : Str := ['.', '.', '.']

/-- The literal `"<dnotehl>...</dnotehl>"` (22 bytes). -/
def ellMark : Str := hbMark ++ dotsMark ++ heMark

/-- Result of running the snippet-building loop. -/
inductive RunRes
  | ok (out : Str)
  | oob
  | timeout
deriving DecidableEq, Repr

/-- The snippet-building loop of `newRun` in search.go, faithful to the
source.  `p` is `phrase_lwr`; the state is the current (mutated) `body`,
the cursor `e`, and the found index `idx` (`none` models Go's `-1`,
checked by the `for idx > -1` head).  The context size `c` is the
literal 60 of the source; `22`, `9` and `10` are the marker lengths
hard-coded there.  On `none` the loop exits into the final
`if e != 0 && e < len(body)` truncation. -/
def searchLoop (p : Str) : Nat → Str → Int → Option Nat → RunRes
  | 0, _, _, _ => .timeout
  | _ + 1, body, e, none =>
      if e ≠ 0 ∧ e < (body.length : Int) then
        match goSlice body 0 e with
        | some b1 => .ok (b1 ++ ellMark)
        | none => .oob
      else .ok body
  | fuel + 1, body, e, some i =>
      let L : Int := p.length
      let s : Int := (i : Int) - 60
      if s > e then
        match goSlice body 0 e, goSlice body s (i : Int),
              goSlice body (i : Int) ((i : Int) + L),
              goSlice body ((i : Int) + L) (body.length : Int) with
        | some b1, some b2, some b3, some b4 =>
            let body2 := b1 ++ ellMark ++ b2 ++ hbMark ++ b3 ++ heMark ++ b4
            let i2 : Int := (i : Int) - (s - e) + 22 + 9
            match indexAt (strToLower body2) p (i2 + L + 10) with
            | some r => searchLoop p fuel body2 (i2 + L + 10 + 60) r
            | none => .oob
        | _, _, _, _ => .oob
      else
        match goSlice body 0 (i : Int),
              goSlice body (i : Int) ((i : Int) + L),
              goSlice body ((i : Int) + L) (body.length : Int) with
        | some b1, some b3, some b4 =>
            let body2 := b1 ++ hbMark ++ b3 ++ heMark ++ b4
            let i2 : Int := (i : Int) + 9
            match indexAt (strToLower body2) p (i2 + L + 10) with
            | some r => searchLoop p fuel body2 (i2 + L + 10 + 60) r
            | none => .oob
        | _, _, _ => .oob

/-- One row's snippet extraction, as `newRun` performs it starting from
`var idx = strings.Index(strings.ToLower(body), phrase_lwr)` with
`e = 0`.  Fuel `body.length + 2` covers every terminating run (the loop
iterates at most once per occurrence, and a non-empty phrase has at most
`body.length` occurrences). -/
def snippetRun (p body : Str) : RunRes :=
  searchLoop p (body.length + 2) body 0 (strIndex (strToLower body) p)

/-- The phrase actually searched and highlighted by `newRun`:
`strings.ToLower(args[0])` — the first CLI argument only. -/
def newRunSnippet (args : List Str) (body : Str) : RunRes :=
  snippetRun (strToLower (args.headD [])) body

/-- Modelled from the spec: the full (case-folded) search phrase — all
terms of the query joined by single spaces, then case-folded — which the
spec says is the phrase handed to MatchLocator. -/
def specFullPhrase (args : List Str) : Str :=
  strToLower (List.intercalate [' '] args)

/-! ## escapePhrase (search.go) -/

/-- ASCII white space, as `unicode.IsSpace` classifies ASCII bytes
(space, \t, \n, \x0B, \x0C, \r). -/
def isSpaceChar (c : Char) : Bool :=
  c = ' ' || c = '\t' || c = '\n' || c = '\x0B' || c = '\x0C' || c = '\r'

def fieldsAux : Str → Str → List Str
  | [], acc => if acc.isEmpty then [] else [acc.reverse]
  | c :: rest, acc =>
      if isSpaceChar c then
        if acc.isEmpty then fieldsAux rest [] else acc.reverse :: fieldsAux rest []
      else fieldsAux rest (c :: acc)

/-- `strings.Fields`: the maximal runs of non-white-space bytes. -/
def fields (s : Str) : List Str := fieldsAux s []

/-- The body of the `for idx, term := range terms` loop of
`escapePhrase`: each term is wrapped in double quotes, and a space is
appended when `idx != len(term)-1` — the source compares against the
length of the current *term*, not of the slice `terms`. -/
def escAux : List Str → Nat → Str
  | [], _ => []
  | term :: rest, idx =>
      (['"'] ++ term ++ ['"'])
        ++ (if (idx : Int) ≠ (term.length : Int) - 1 then [' '] else [])
        ++ escAux rest (idx + 1)

/-- `escapePhrase` from search.go. -/
def escapePhrase (s : Str) : Str := escAux (fields s) 0

/-! ## The occurrence locator

The loop discovers occurrences with `strings.Index` / `indexAt` against
the lowered body, resuming right after the previous occurrence's end
(`idx+len(phrase_lwr)+10` lands just past the inserted `</dnotehl>`).
`locAux` is that search discipline on the original body. -/

def locAux (lb p : Str) : Nat → Nat → List Nat
  | 0, _ => []
  | fuel + 1, n =>
      match strIndex (lb.drop n) p with
      | none => []
      | some j => (n + j) :: locAux lb p fuel (n + j + p.length)

/-- Start offsets of the non-overlapping occurrences of `p` (taken
verbatim, as `phrase_lwr` is) in the case-folded body. -/
def locStarts (p B : Str) : List Nat :=
  locAux (strToLower B) p (B.length + 1) 0

/-- MatchLocator: `[start, end)` byte ranges of the non-overlapping,
left-to-right occurrences of the case-folded `phrase` in the case-folded
body, offsets against the original body. -/
def matchLocator (phrase B : Str) : List (Nat × Nat) :=
  (locStarts (strToLower phrase) B).map fun i =>
    (i, i + (strToLower phrase).length)

/-! ## Structured view of the extractor output -/

/-- A segment of the marked-up output: a literal slice of the body, the
inserted ellipsis text, or a highlight marker. -/
inductive Seg
  | lit (s : Str)
  | dots
  | mhb
  | mhe
deriving DecidableEq, Repr

def segStr : Seg → Str
  | .lit s => s
  | .dots => dotsMark
  | .mhb => hbMark
  | .mhe => heMark

def flattenSegs (segs : List Seg) : Str := (segs.map segStr).flatten

/-- `body[a:b]` for in-range `Nat` offsets. -/
def seg (B : Str) (a b : Nat) : Str := (B.drop a).take (b - a)

def ellSegs : List Seg := [.mhb, .dots, .mhe]

def hlSegs (s : Str) : List Seg := [.mhb, .lit s, .mhe]

/-- The windows built for the second and later occurrences, given the
previous occurrence's end `m`.  A new window (preceded by the ellipsis
marker) starts exactly when `i > m + 2*60`: the loop's cursor `e` sits
60 bytes past the previous occurrence's end marker, so `s > e` there
means `i - 60 > m + 60`.  Afterwards the final truncation keeps 60 bytes
past the last occurrence and appends the ellipsis marker iff more of the
body remains. -/
def buildSegs (B : Str) (L : Nat) : List Nat → Nat → List Seg
  | [], m =>
      if m + 60 < B.length then .lit (seg B m (m + 60)) :: ellSegs
      else [.lit (B.drop m)]
  | i :: rest, m =>
      (if m + 120 < i then
        [.lit (seg B m (m + 60))] ++ ellSegs ++ [.lit (seg B (i - 60) i)]
      else [.lit (seg B m i)])
        ++ hlSegs (seg B i (i + L)) ++ buildSegs B L rest (i + L)

/-- The extractor's output as segments.  Zero occurrences leave the body
untouched.  The first occurrence starts from cursor `e = 0`, so its
window opens an ellipsis marker exactly when `i > 60` — even at the very
start of the output. -/
def extractSegs (p B : Str) : List Seg :=
  match locStarts p B with
  | [] => [.lit B]
  | i :: rest =>
      (if 60 < i then ellSegs ++ [.lit (seg B (i - 60) i)]
      else [.lit (seg B 0 i)])
        ++ hlSegs (seg B i (i + p.length)) ++ buildSegs B p.length rest (i + p.length)

/-! ## Basic lemmas -/

theorem strToLower_append (a b : Str) :
    strToLower (a ++ b) = strToLower a ++ strToLower b := by
  simp [strToLower]

theorem strToLower_length (a : Str) : (strToLower a).length = a.length := by
  simp [strToLower]

theorem strToLower_drop (a : Str) (n : Nat) :
    (strToLower a).drop n = strToLower (a.drop n) := by
  simp [strToLower, List.map_drop]

theorem strIndex_nil {p : Str} (hp : p ≠ []) : strIndex [] p = none := by
  cases p with
  | nil => exact absurd rfl hp
  | cons c t => simp [strIndex, List.isPrefixOf]

theorem strIndex_spec : ∀ (s p : Str) {j : Nat}, strIndex s p = some j →
    p <+: s.drop j ∧ j + p.length ≤ s.length ∧ ∀ q, q < j → ¬ p <+: s.drop q
  | [], p, j, h => by
      unfold strIndex at h
      split at h
      · next hpre =>
        cases h
        have hp : p <+: ([] : Str) := by simpa using hpre
        refine ⟨hp, ?_, fun q hq => absurd hq (by omega)⟩
        have := hp.length_le
        simpa using this
      · exact absurd h (by simp)
  | c :: t, p, j, h => by
      unfold strIndex at h
      split at h
      · next hpre =>
        cases h
        have hp : p <+: c :: t := by simpa using hpre
        exact ⟨hp, by simpa using hp.length_le, fun q hq => absurd hq (by omega)⟩
      · next hpre =>
        have hnp : ¬ p <+: c :: t := by simpa using hpre
        obtain ⟨j', hj', rfl⟩ : ∃ j', strIndex t p = some j' ∧ j = j' + 1 := by
          cases hidx : strIndex t p with
          | none => rw [hidx] at h; simp at h
          | some k => rw [hidx] at h; simp at h; exact ⟨k, rfl, h.symm⟩
        obtain ⟨h1, h2, h3⟩ := strIndex_spec t p hj'
        refine ⟨by simpa using h1, by simp; omega, ?_⟩
        intro q hq
        cases q with
        | zero => simpa using hnp
        | succ q' => simpa using h3 q' (by omega)

theorem strIndex_none : ∀ (s p : Str), p ≠ [] → strIndex s p = none →
    ∀ q, ¬ p <+: s.drop q
  | [], p, hp, _, q => by
      intro hc
      rw [List.drop_nil] at hc
      exact hp (List.prefix_nil.mp hc)
  | c :: t, p, hp, h, q => by
      unfold strIndex at h
      split at h
      · simp at h
      · next hpre =>
        have hnp : ¬ p <+: c :: t := by simpa using hpre
        have ht : strIndex t p = none := by
          cases hidx : strIndex t p with
          | none => rfl
          | some k => rw [hidx] at h; simp at h
        cases q with
        | zero => simpa using hnp
        | succ q' => simpa using strIndex_none t p hp ht q'

/-! ## locAux facts -/

theorem locAux_mem (lb p : Str) (hp : p ≠ []) :
    ∀ (fuel n : Nat), ∀ i ∈ locAux lb p fuel n,
      n ≤ i ∧ i + p.length ≤ lb.length ∧ p <+: lb.drop i
  | 0, _ => by intro i hi; simp [locAux] at hi
  | fuel + 1, n => by
      intro i hi
      unfold locAux at hi
      cases hidx : strIndex (lb.drop n) p with
      | none => rw [hidx] at hi; simp at hi
      | some j =>
        rw [hidx] at hi
        obtain ⟨h1, h2, _⟩ := strIndex_spec _ p hidx
        have hdl : (lb.drop n).length = lb.length - n := by simp
        have hpl : 1 ≤ p.length := by
          cases p with
          | nil => exact absurd rfl hp
          | cons a b => simp
        simp only [List.mem_cons] at hi
        rcases hi with rfl | hi
        · rw [List.drop_drop] at h1
          refine ⟨by omega, by omega, h1⟩
        · obtain ⟨ha, hb, hc⟩ := locAux_mem lb p hp fuel (n + j + p.length) i hi
          exact ⟨by omega, hb, hc⟩

theorem locAux_fuel (lb p : Str) (hp : p ≠ []) :
    ∀ (f₁ f₂ n : Nat), lb.length + 1 ≤ f₁ + n → lb.length + 1 ≤ f₂ + n →
      locAux lb p f₁ n = locAux lb p f₂ n
  | 0, f₂, n => by
      intro h1 _
      have hdrop : lb.drop n = [] := List.drop_eq_nil_of_le (by omega)
      cases f₂ with
      | zero => rfl
      | succ k => simp [locAux, hdrop, strIndex_nil hp]
  | f₁ + 1, 0, n => by
      intro _ h2
      have hdrop : lb.drop n = [] := List.drop_eq_nil_of_le (by omega)
      simp [locAux, hdrop, strIndex_nil hp]
  | f₁ + 1, f₂ + 1, n => by
      intro h1 h2
      unfold locAux
      cases hidx : strIndex (lb.drop n) p with
      | none => rfl
      | some j =>
        obtain ⟨_, h2', _⟩ := strIndex_spec _ p hidx
        have hpl : 1 ≤ p.length := by
          cases p with
          | nil => exact absurd rfl hp
          | cons a b => simp
        have hdl : (lb.drop n).length = lb.length - n := by simp
        simp only [List.cons.injEq, true_and]
        exact locAux_fuel lb p hp f₁ f₂ (n + j + p.length) (by omega) (by omega)

theorem locAux_len (lb p : Str) (hp : p ≠ []) :
    ∀ (fuel n : Nat), (locAux lb p fuel n).length ≤ lb.length + 1 - n
  | 0, n => by simp [locAux]
  | fuel + 1, n => by
      unfold locAux
      cases hidx : strIndex (lb.drop n) p with
      | none => simp
      | some j =>
        obtain ⟨_, h2, _⟩ := strIndex_spec _ p hidx
        have hpl : 1 ≤ p.length := by
          cases p with
          | nil => exact absurd rfl hp
          | cons a b => simp
        have hdl : (lb.drop n).length = lb.length - n := by simp
        have hrec := locAux_len lb p hp fuel (n + j + p.length)
        simp only [List.length_cons]
        omega

theorem locAux_succ (lb p : Str) (fuel n : Nat) :
    locAux lb p (fuel + 1) n =
      match strIndex (lb.drop n) p with
      | none => []
      | some j => (n + j) :: locAux lb p fuel (n + j + p.length) := rfl

theorem length_pos_of_ne_nil {p : Str} (hp : p ≠ []) : 1 ≤ p.length := by
  cases p with
  | nil => exact absurd rfl hp
  | cons a b => simp

/-! ## Marker lengths and slice helpers -/

theorem hbMark_length : hbMark.length = 9 := rfl

theorem heMark_length : heMark.length = 10 := rfl

theorem dotsMark_length : dotsMark.length = 3 := rfl

theorem ellMark_length : ellMark.length = 22 := rfl

theorem seg_length (B : Str) (a b : Nat) (_hab : a ≤ b) (hb : b ≤ B.length) :
    (seg B a b).length = b - a := by
  simp [seg]
  omega

theorem seg_drop (B : Str) (m a b : Nat) :
    seg (B.drop m) a b = seg B (m + a) (m + b) := by
  simp only [seg, List.drop_drop]
  congr 1
  omega

theorem seg_zero (B : Str) (b : Nat) : seg B 0 b = B.take b := by
  simp [seg]

theorem seg_to_end (B : Str) (a : Nat) : seg B a B.length = B.drop a := by
  apply List.take_of_length_le
  simp

theorem goSlice_pos (x y : Str) (a b : Nat) (sa sb : Int)
    (hsa : sa = x.length + a) (hsb : sb = x.length + b)
    (hab : a ≤ b) (hb : b ≤ y.length) :
    goSlice (x ++ y) sa sb = some (seg y a b) := by
  subst hsa hsb
  unfold goSlice
  rw [if_pos (by simp only [List.length_append]; omega)]
  have h1 : ((x.length : Int) + a).toNat = x.length + a := by omega
  have h2 : (((x.length : Int) + b) - ((x.length : Int) + a)).toNat = b - a := by omega
  rw [h1, h2, List.drop_append]
  rfl

theorem goSlice_zero (x y : Str) (b : Nat) (sb : Int)
    (hsb : sb = x.length + b) (hb : b ≤ y.length) :
    goSlice (x ++ y) 0 sb = some (x ++ y.take b) := by
  subst hsb
  unfold goSlice
  rw [if_pos (by simp only [List.length_append]; omega)]
  have h1 : ((0 : Int)).toNat = 0 := rfl
  have h2 : (((x.length : Int) + b) - 0).toNat = x.length + b := by omega
  rw [h1, h2, List.drop_zero, List.take_append]

theorem indexAt_app (x y p : Str) (n : Int) (hn : n = x.length) :
    indexAt (strToLower (x ++ y)) p n =
      some ((strIndex (strToLower y) p).map (· + x.length)) := by
  subst hn
  unfold indexAt
  rw [strToLower_append]
  rw [if_pos (by simp only [List.length_append, strToLower_length]; omega)]
  have h1 : ((x.length : Int)).toNat = x.length := by omega
  rw [h1, List.drop_left' (strToLower_length x)]

theorem flattenSegs_nil : flattenSegs [] = [] := rfl

theorem flattenSegs_cons (s : Seg) (r : List Seg) :
    flattenSegs (s :: r) = segStr s ++ flattenSegs r := by
  simp [flattenSegs]

theorem flattenSegs_append (a b : List Seg) :
    flattenSegs (a ++ b) = flattenSegs a ++ flattenSegs b := by
  simp [flattenSegs]

theorem seg_take_drop (B : Str) (m k : Nat) : seg B m (m + k) = (B.drop m).take k := by
  simp [seg]

/-! ## One-step unfoldings of searchLoop -/

theorem searchLoop_exit_trunc (p body b1 : Str) (f : Nat) (e : Int)
    (hcond : e ≠ 0 ∧ e < (body.length : Int)) (hgs : goSlice body 0 e = some b1) :
    searchLoop p (f + 1) body e none = .ok (b1 ++ ellMark) := by
  simp only [searchLoop, if_pos hcond, hgs]

theorem searchLoop_exit_plain (p body : Str) (f : Nat) (e : Int)
    (hcond : ¬(e ≠ 0 ∧ e < (body.length : Int))) :
    searchLoop p (f + 1) body e none = .ok body := by
  simp only [searchLoop, if_neg hcond]

theorem searchLoop_step_new (p body b1 b2 b3 b4 : Str) (f : Nat) (e : Int) (i : Nat)
    (r : Option Nat)
    (hcond : (i : Int) - 60 > e)
    (h1 : goSlice body 0 e = some b1)
    (h2 : goSlice body ((i : Int) - 60) (i : Int) = some b2)
    (h3 : goSlice body (i : Int) ((i : Int) + (p.length : Int)) = some b3)
    (h4 : goSlice body ((i : Int) + (p.length : Int)) ((body.length : Int)) = some b4)
    (hIdx : indexAt (strToLower (b1 ++ ellMark ++ b2 ++ hbMark ++ b3 ++ heMark ++ b4)) p
        ((i : Int) - ((i : Int) - 60 - e) + 22 + 9 + (p.length : Int) + 10) = some r) :
    searchLoop p (f + 1) body e (some i) =
      searchLoop p f (b1 ++ ellMark ++ b2 ++ hbMark ++ b3 ++ heMark ++ b4)
        ((i : Int) - ((i : Int) - 60 - e) + 22 + 9 + (p.length : Int) + 10 + 60) r := by
  simp only [searchLoop, if_pos hcond, h1, h2, h3, h4, hIdx]

theorem searchLoop_step_merge (p body b1 b3 b4 : Str) (f : Nat) (e : Int) (i : Nat)
    (r : Option Nat)
    (hcond : ¬((i : Int) - 60 > e))
    (h1 : goSlice body 0 (i : Int) = some b1)
    (h3 : goSlice body (i : Int) ((i : Int) + (p.length : Int)) = some b3)
    (h4 : goSlice body ((i : Int) + (p.length : Int)) ((body.length : Int)) = some b4)
    (hIdx : indexAt (strToLower (b1 ++ hbMark ++ b3 ++ heMark ++ b4)) p
        ((i : Int) + 9 + (p.length : Int) + 10) = some r) :
    searchLoop p (f + 1) body e (some i) =
      searchLoop p f (b1 ++ hbMark ++ b3 ++ heMark ++ b4)
        ((i : Int) + 9 + (p.length : Int) + 10 + 60) r := by
  simp only [searchLoop, if_neg hcond, h1, h3, h4, hIdx]

theorem goSlice_nat (y : Str) (a b : Nat) (sa sb : Int)
    (hsa : sa = a) (hsb : sb = b) (hab : a ≤ b) (hb : b ≤ y.length) :
    goSlice y sa sb = some (seg y a b) := by
  subst hsa hsb
  unfold goSlice
  rw [if_pos (by omega)]
  have h1 : ((a : Int)).toNat = a := by omega
  have h2 : ((b : Int) - (a : Int)).toNat = b - a := by omega
  rw [h1, h2]
  rfl

theorem goSlice_self_zero (s : Str) : goSlice s 0 0 = some [] := by
  unfold goSlice
  rw [if_pos (by omega)]
  simp

/-! ## The refinement: the mutating loop computes `flattenSegs ∘ buildSegs`

The loop invariant: entering an iteration, the mutated body is
`out ++ B.drop m` where `out` is the output built so far (ending right
after the previous occurrence's `</dnotehl>`, preceded by its 60 bytes
of trailing context only virtually — they are still part of `B.drop m`),
wait — precisely: `out` ends with the previous `</dnotehl>` marker, the
cursor satisfies `e = out.length + 60`, and the search resumes at
`out.length`, i.e. at original offset `m`, the previous occurrence's
end. -/

theorem searchLoop_eq (p B : Str) (hp : p ≠ []) :
    ∀ (fuel : Nat) (out : Str) (m : Nat),
      m ≤ B.length →
      (locAux (strToLower B) p (B.length + 1) m).length + 1 ≤ fuel →
      searchLoop p fuel (out ++ B.drop m) ((out.length : Int) + 60)
          ((strIndex ((strToLower B).drop m) p).map (· + out.length))
        = .ok (out ++ flattenSegs (buildSegs B p.length
            (locAux (strToLower B) p (B.length + 1) m) m)) := by
  intro fuel
  induction fuel with
  | zero => intro out m _ hf; omega
  | succ f ih =>
    intro out m hm hf
    have hpl : 1 ≤ p.length := length_pos_of_ne_nil hp
    have hlb : (strToLower B).length = B.length := strToLower_length B
    have hdv : (B.drop m).length = B.length - m := by simp
    cases hidx : strIndex ((strToLower B).drop m) p with
    | none =>
      have hloc : locAux (strToLower B) p (B.length + 1) m = [] := by
        rw [locAux_succ, hidx]
      rw [hloc]
      simp only [Option.map_none']
      by_cases h60 : m + 60 < B.length
      · rw [searchLoop_exit_trunc p _ (out ++ (B.drop m).take 60) f _
            ⟨by omega, by simp only [List.length_append, List.length_drop]; omega⟩
            (goSlice_zero out (B.drop m) 60 _ (by omega) (by omega))]
        simp only [buildSegs, if_pos h60, flattenSegs_cons, flattenSegs_nil, segStr,
          ellSegs, seg_take_drop, ellMark]
        simp [List.append_assoc]
      · rw [searchLoop_exit_plain p _ f _
            (by simp only [List.length_append, List.length_drop]; omega)]
        simp only [buildSegs, if_neg h60, flattenSegs_cons, flattenSegs_nil, segStr]
        simp
    | some j =>
      obtain ⟨hpre, hjlen, _⟩ := strIndex_spec _ p hidx
      rw [List.length_drop, hlb] at hjlen
      have hloc : locAux (strToLower B) p (B.length + 1) m
          = (m + j) :: locAux (strToLower B) p (B.length + 1) (m + j + p.length) := by
        rw [locAux_succ, hidx]
        show (m + j) :: locAux (strToLower B) p B.length (m + j + p.length) = _
        rw [locAux_fuel (strToLower B) p hp B.length (B.length + 1) (m + j + p.length)
          (by omega) (by omega)]
      rw [hloc]
      simp only [Option.map_some']
      have htail : (locAux (strToLower B) p (B.length + 1) (m + j + p.length)).length + 1 ≤ f := by
        rw [hloc] at hf
        simp only [List.length_cons] at hf
        omega
      by_cases hj : 120 < j
      · -- new window
        have h1 : goSlice (out ++ B.drop m) 0 ((out.length : Int) + 60)
            = some (out ++ (B.drop m).take 60) :=
          goSlice_zero _ _ 60 _ (by omega) (by omega)
        have h2 : goSlice (out ++ B.drop m) (((j + out.length : Nat) : Int) - 60)
              ((j + out.length : Nat) : Int)
            = some (seg (B.drop m) (j - 60) j) :=
          goSlice_pos _ _ (j - 60) j _ _ (by omega) (by omega) (by omega) (by omega)
        have h3 : goSlice (out ++ B.drop m) ((j + out.length : Nat) : Int)
              (((j + out.length : Nat) : Int) + (p.length : Int))
            = some (seg (B.drop m) j (j + p.length)) :=
          goSlice_pos _ _ j (j + p.length) _ _ (by omega) (by omega) (by omega) (by omega)
        have h4 : goSlice (out ++ B.drop m) (((j + out.length : Nat) : Int) + (p.length : Int))
              (((out ++ B.drop m).length : Int))
            = some (seg (B.drop m) (j + p.length) (B.length - m)) :=
          goSlice_pos _ _ (j + p.length) (B.length - m) _ _ (by omega)
            (by simp only [List.length_append]; omega) (by omega) (by omega)
        have hb4 : seg (B.drop m) (j + p.length) (B.length - m) = B.drop (m + j + p.length) := by
          rw [← hdv, seg_to_end, List.drop_drop, Nat.add_assoc]
        have hlen2 : (out ++ (B.drop m).take 60 ++ ellMark ++ seg (B.drop m) (j - 60) j
              ++ hbMark ++ seg (B.drop m) j (j + p.length) ++ heMark).length
            = out.length + 161 + p.length := by
          simp only [List.length_append, List.length_take, ellMark_length,
            hbMark_length, heMark_length,
            seg_length (B.drop m) (j - 60) j (by omega) (by omega),
            seg_length (B.drop m) j (j + p.length) (by omega) (by omega)]
          omega
        have hbody2 : (out ++ (B.drop m).take 60) ++ ellMark ++ seg (B.drop m) (j - 60) j
              ++ hbMark ++ seg (B.drop m) j (j + p.length) ++ heMark
              ++ seg (B.drop m) (j + p.length) (B.length - m)
            = (out ++ (B.drop m).take 60 ++ ellMark ++ seg (B.drop m) (j - 60) j
              ++ hbMark ++ seg (B.drop m) j (j + p.length) ++ heMark)
              ++ B.drop (m + j + p.length) := by
          rw [hb4]
        have hnarg : ((j + out.length : Nat) : Int) - (((j + out.length : Nat) : Int) - 60
              - ((out.length : Int) + 60)) + 22 + 9 + (p.length : Int) + 10
            = (((out ++ (B.drop m).take 60 ++ ellMark ++ seg (B.drop m) (j - 60) j
              ++ hbMark ++ seg (B.drop m) j (j + p.length) ++ heMark).length : Int)) := by
          rw [hlen2]
          omega
        have hIdx : indexAt (strToLower ((out ++ (B.drop m).take 60) ++ ellMark
              ++ seg (B.drop m) (j - 60) j ++ hbMark ++ seg (B.drop m) j (j + p.length)
              ++ heMark ++ seg (B.drop m) (j + p.length) (B.length - m))) p
              (((j + out.length : Nat) : Int) - (((j + out.length : Nat) : Int) - 60
              - ((out.length : Int) + 60)) + 22 + 9 + (p.length : Int) + 10)
            = some ((strIndex ((strToLower B).drop (m + j + p.length)) p).map
                (· + (out ++ (B.drop m).take 60 ++ ellMark ++ seg (B.drop m) (j - 60) j
                  ++ hbMark ++ seg (B.drop m) j (j + p.length) ++ heMark).length)) := by
          rw [hbody2, hnarg, indexAt_app _ _ p _ rfl, strToLower_drop]
        rw [searchLoop_step_new p (out ++ B.drop m) _ _ _ _ f _ (j + out.length) _
          (by omega) h1 h2 h3 h4 hIdx]
        rw [hbody2, hnarg]
        rw [ih (out ++ (B.drop m).take 60 ++ ellMark ++ seg (B.drop m) (j - 60) j
          ++ hbMark ++ seg (B.drop m) j (j + p.length) ++ heMark) (m + j + p.length)
          (by omega) htail]
        have e1 : m + (j - 60) = m + j - 60 := by omega
        have e2 : m + (j + p.length) = m + j + p.length := by omega
        simp only [buildSegs, if_pos (show m + 120 < m + j by omega), hlSegs, ellSegs,
          flattenSegs_append, flattenSegs_cons, flattenSegs_nil, segStr,
          seg_take_drop, seg_drop, e1, e2, ellMark]
        simp [List.append_assoc, List.drop_drop]
      · -- merge
        have h1 : goSlice (out ++ B.drop m) 0 ((j + out.length : Nat) : Int)
            = some (out ++ (B.drop m).take j) :=
          goSlice_zero _ _ j _ (by omega) (by omega)
        have h3 : goSlice (out ++ B.drop m) ((j + out.length : Nat) : Int)
              (((j + out.length : Nat) : Int) + (p.length : Int))
            = some (seg (B.drop m) j (j + p.length)) :=
          goSlice_pos _ _ j (j + p.length) _ _ (by omega) (by omega) (by omega) (by omega)
        have h4 : goSlice (out ++ B.drop m) (((j + out.length : Nat) : Int) + (p.length : Int))
              (((out ++ B.drop m).length : Int))
            = some (seg (B.drop m) (j + p.length) (B.length - m)) :=
          goSlice_pos _ _ (j + p.length) (B.length - m) _ _ (by omega)
            (by simp only [List.length_append]; omega) (by omega) (by omega)
        have hb4 : seg (B.drop m) (j + p.length) (B.length - m) = B.drop (m + j + p.length) := by
          rw [← hdv, seg_to_end, List.drop_drop, Nat.add_assoc]
        have hlen2 : (out ++ (B.drop m).take j ++ hbMark
              ++ seg (B.drop m) j (j + p.length) ++ heMark).length
            = out.length + j + 19 + p.length := by
          simp only [List.length_append, List.length_take, hbMark_length, heMark_length,
            seg_length (B.drop m) j (j + p.length) (by omega) (by omega)]
          omega
        have hbody2 : (out ++ (B.drop m).take j) ++ hbMark
              ++ seg (B.drop m) j (j + p.length) ++ heMark
              ++ seg (B.drop m) (j + p.length) (B.length - m)
            = (out ++ (B.drop m).take j ++ hbMark
              ++ seg (B.drop m) j (j + p.length) ++ heMark)
              ++ B.drop (m + j + p.length) := by
          rw [hb4]
        have hnarg : ((j + out.length : Nat) : Int) + 9 + (p.length : Int) + 10
            = (((out ++ (B.drop m).take j ++ hbMark
              ++ seg (B.drop m) j (j + p.length) ++ heMark).length : Int)) := by
          rw [hlen2]
          omega
        have hIdx : indexAt (strToLower ((out ++ (B.drop m).take j) ++ hbMark
              ++ seg (B.drop m) j (j + p.length) ++ heMark
              ++ seg (B.drop m) (j + p.length) (B.length - m))) p
              (((j + out.length : Nat) : Int) + 9 + (p.length : Int) + 10)
            = some ((strIndex ((strToLower B).drop (m + j + p.length)) p).map
                (· + (out ++ (B.drop m).take j ++ hbMark
                  ++ seg (B.drop m) j (j + p.length) ++ heMark).length)) := by
          rw [hbody2, hnarg, indexAt_app _ _ p _ rfl, strToLower_drop]
        rw [searchLoop_step_merge p (out ++ B.drop m) _ _ _ f _ (j + out.length) _
          (by omega) h1 h3 h4 hIdx]
        rw [hbody2, hnarg]
        rw [ih (out ++ (B.drop m).take j ++ hbMark
          ++ seg (B.drop m) j (j + p.length) ++ heMark) (m + j + p.length)
          (by omega) htail]
        have e2 : m + (j + p.length) = m + j + p.length := by omega
        have e3 : seg B m (m + j) = (B.drop m).take j := seg_take_drop B m j
        simp only [buildSegs, if_neg (show ¬ m + 120 < m + j by omega), hlSegs,
          flattenSegs_append, flattenSegs_cons, flattenSegs_nil, segStr,
          seg_drop, e2, e3]
        simp [List.append_assoc, List.drop_drop]

/-- The central refinement: for a non-empty (lowered) phrase the
mutating loop of `newRun` terminates within its fuel, never hits an
out-of-range slice, and its output is exactly the flattening of the
structured extraction `extractSegs`. -/
theorem snippetRun_eq_segs (p B : Str) (hp : p ≠ []) :
    snippetRun p B = .ok (flattenSegs (extractSegs p B)) := by
  have hpl : 1 ≤ p.length := length_pos_of_ne_nil hp
  have hlb : (strToLower B).length = B.length := strToLower_length B
  show searchLoop p (B.length + 1 + 1) B 0 (strIndex (strToLower B) p)
      = .ok (flattenSegs (extractSegs p B))
  cases hidx : strIndex (strToLower B) p with
  | none =>
    have hidx0 : strIndex ((strToLower B).drop 0) p = none := by
      rw [List.drop_zero]; exact hidx
    have hloc : locStarts p B = [] := by
      unfold locStarts; rw [locAux_succ, hidx0]
    rw [searchLoop_exit_plain p B (B.length + 1) 0 (by omega)]
    unfold extractSegs
    rw [hloc]
    simp [flattenSegs, segStr]
  | some i =>
    have hidx0 : strIndex ((strToLower B).drop 0) p = some i := by
      rw [List.drop_zero]; exact hidx
    obtain ⟨hpre, hjlen, _⟩ := strIndex_spec _ p hidx
    rw [hlb] at hjlen
    have hloc : locStarts p B = i :: locAux (strToLower B) p (B.length + 1) (i + p.length) := by
      unfold locStarts
      rw [locAux_succ, hidx0]
      show (0 + i) :: locAux (strToLower B) p B.length (0 + i + p.length) = _
      rw [locAux_fuel (strToLower B) p hp B.length (B.length + 1) (0 + i + p.length)
        (by omega) (by omega)]
      simp only [Nat.zero_add]
    have htail :
        (locAux (strToLower B) p (B.length + 1) (i + p.length)).length + 1 ≤ B.length + 1 := by
      have := locAux_len (strToLower B) p hp (B.length + 1) (i + p.length)
      rw [hlb] at this
      omega
    unfold extractSegs
    rw [hloc]
    by_cases hi : 60 < i
    · have h1 : goSlice B 0 0 = some [] := goSlice_self_zero B
      have h2 : goSlice B ((i : Int) - 60) (i : Int) = some (seg B (i - 60) i) :=
        goSlice_nat B (i - 60) i _ _ (by omega) (by omega) (by omega) (by omega)
      have h3 : goSlice B (i : Int) ((i : Int) + (p.length : Int))
          = some (seg B i (i + p.length)) :=
        goSlice_nat B i (i + p.length) _ _ (by omega) (by omega) (by omega) (by omega)
      have h4 : goSlice B ((i : Int) + (p.length : Int)) ((B.length : Int))
          = some (seg B (i + p.length) B.length) :=
        goSlice_nat B (i + p.length) B.length _ _ (by omega) (by omega) (by omega) (by omega)
      have hb4 : seg B (i + p.length) B.length = B.drop (i + p.length) := seg_to_end B _
      have hbody1 : [] ++ ellMark ++ seg B (i - 60) i ++ hbMark ++ seg B i (i + p.length)
            ++ heMark ++ seg B (i + p.length) B.length
          = (ellMark ++ seg B (i - 60) i ++ hbMark ++ seg B i (i + p.length) ++ heMark)
            ++ B.drop (i + p.length) := by
        rw [hb4]
        rfl
      have hlen1 : (ellMark ++ seg B (i - 60) i ++ hbMark ++ seg B i (i + p.length)
            ++ heMark).length = 101 + p.length := by
        simp only [List.length_append, ellMark_length, hbMark_length, heMark_length,
          seg_length B (i - 60) i (by omega) (by omega),
          seg_length B i (i + p.length) (by omega) (by omega)]
        omega
      have hnarg1 : (i : Int) - ((i : Int) - 60 - 0) + 22 + 9 + (p.length : Int) + 10
          = (((ellMark ++ seg B (i - 60) i ++ hbMark ++ seg B i (i + p.length)
            ++ heMark).length : Int)) := by
        rw [hlen1]
        omega
      have hIdx1 : indexAt (strToLower ([] ++ ellMark ++ seg B (i - 60) i ++ hbMark
            ++ seg B i (i + p.length) ++ heMark ++ seg B (i + p.length) B.length)) p
            ((i : Int) - ((i : Int) - 60 - 0) + 22 + 9 + (p.length : Int) + 10)
          = some ((strIndex ((strToLower B).drop (i + p.length)) p).map
              (· + (ellMark ++ seg B (i - 60) i ++ hbMark ++ seg B i (i + p.length)
                ++ heMark).length)) := by
        rw [hbody1, hnarg1, indexAt_app _ _ p _ rfl, strToLower_drop]
      rw [searchLoop_step_new p B _ _ _ _ (B.length + 1) 0 i _ (by omega) h1 h2 h3 h4 hIdx1]
      rw [hbody1, hnarg1]
      rw [searchLoop_eq p B hp (B.length + 1)
        (ellMark ++ seg B (i - 60) i ++ hbMark ++ seg B i (i + p.length) ++ heMark)
        (i + p.length) (by omega) htail]
      simp only [if_pos hi, flattenSegs_append, flattenSegs_cons, flattenSegs_nil, segStr,
        ellSegs, hlSegs, ellMark]
      simp [List.append_assoc]
    · have h1 : goSlice B 0 (i : Int) = some (seg B 0 i) :=
        goSlice_nat B 0 i _ _ (by omega) (by omega) (by omega) (by omega)
      have h3 : goSlice B (i : Int) ((i : Int) + (p.length : Int))
          = some (seg B i (i + p.length)) :=
        goSlice_nat B i (i + p.length) _ _ (by omega) (by omega) (by omega) (by omega)
      have h4 : goSlice B ((i : Int) + (p.length : Int)) ((B.length : Int))
          = some (seg B (i + p.length) B.length) :=
        goSlice_nat B (i + p.length) B.length _ _ (by omega) (by omega) (by omega) (by omega)
      have hb4 : seg B (i + p.length) B.length = B.drop (i + p.length) := seg_to_end B _
      have hbody1 : seg B 0 i ++ hbMark ++ seg B i (i + p.length)
            ++ heMark ++ seg B (i + p.length) B.length
          = (seg B 0 i ++ hbMark ++ seg B i (i + p.length) ++ heMark)
            ++ B.drop (i + p.length) := by
        rw [hb4]
      have hlen1 : (seg B 0 i ++ hbMark ++ seg B i (i + p.length) ++ heMark).length
          = i + 19 + p.length := by
        simp only [List.length_append, hbMark_length, heMark_length,
          seg_length B 0 i (by omega) (by omega),
          seg_length B i (i + p.length) (by omega) (by omega)]
        omega
      have hnarg1 : (i : Int) + 9 + (p.length : Int) + 10
          = (((seg B 0 i ++ hbMark ++ seg B i (i + p.length) ++ heMark).length : Int)) := by
        rw [hlen1]
        omega
      have hIdx1 : indexAt (strToLower (seg B 0 i ++ hbMark ++ seg B i (i + p.length)
            ++ heMark ++ seg B (i + p.length) B.length)) p
            ((i : Int) + 9 + (p.length : Int) + 10)
          = some ((strIndex ((strToLower B).drop (i + p.length)) p).map
              (· + (seg B 0 i ++ hbMark ++ seg B i (i + p.length) ++ heMark).length)) := by
        rw [hbody1, hnarg1, indexAt_app _ _ p _ rfl, strToLower_drop]
      rw [searchLoop_step_merge p B _ _ _ (B.length + 1) 0 i _ (by omega) h1 h3 h4 hIdx1]
      rw [hbody1, hnarg1]
      rw [searchLoop_eq p B hp (B.length + 1)
        (seg B 0 i ++ hbMark ++ seg B i (i + p.length) ++ heMark)
        (i + p.length) (by omega) htail]
      simp only [if_neg hi, flattenSegs_append, flattenSegs_cons, flattenSegs_nil, segStr,
        hlSegs]
      simp [List.append_assoc]

/-! ## Slice safety: the loop never evaluates an out-of-range slice -/

theorem goSlice_isSome (s : Str) (a b : Int)
    (h : 0 ≤ a ∧ a ≤ b ∧ b ≤ (s.length : Int)) :
    ∃ r, goSlice s a b = some r := by
  unfold goSlice
  rw [if_pos h]
  exact ⟨_, rfl⟩

theorem indexAt_isSome (s p : Str) (n : Int)
    (h : 0 ≤ n ∧ n ≤ (s.length : Int)) :
    ∃ r, indexAt s p n = some r := by
  unfold indexAt
  rw [if_pos h]
  exact ⟨_, rfl⟩

theorem goSlice_length (s : Str) (a b : Int) (r : Str) (h : goSlice s a b = some r) :
    (r.length : Int) = b - a := by
  unfold goSlice at h
  split at h
  · next hcond =>
    cases h
    simp only [List.length_take, List.length_drop]
    omega
  · simp at h

theorem indexAt_bound (s p : Str) (n : Int) (i : Nat)
    (h : indexAt s p n = some (some i)) : i + p.length ≤ s.length := by
  unfold indexAt at h
  split at h
  · next hcond =>
    have h2 : (strIndex (s.drop n.toNat) p).map (· + n.toNat) = some i :=
      Option.some.inj h
    cases hj : strIndex (s.drop n.toNat) p with
    | none => rw [hj] at h2; simp at h2
    | some j =>
      rw [hj] at h2
      simp only [Option.map_some'] at h2
      have hji : j + n.toNat = i := Option.some.inj h2
      obtain ⟨_, hb, _⟩ := strIndex_spec _ p hj
      rw [List.length_drop] at hb
      omega
  · simp at h

/-- Every slice the loop takes is in range: whatever the phrase (empty
included) and the fuel, the run never aborts on an out-of-range slice. -/
theorem searchLoop_no_oob (p : Str) :
    ∀ (fuel : Nat) (body : Str) (e : Int) (idxO : Option Nat),
      0 ≤ e →
      (∀ i, idxO = some i → i + p.length ≤ body.length) →
      searchLoop p fuel body e idxO ≠ .oob := by
  intro fuel
  induction fuel with
  | zero => intro body e idxO _ _; simp [searchLoop]
  | succ f ih =>
    intro body e idxO he hA
    cases idxO with
    | none =>
      by_cases hc : e ≠ 0 ∧ e < (body.length : Int)
      · obtain ⟨b1, hb1⟩ := goSlice_isSome body 0 e ⟨by omega, by omega, by omega⟩
        rw [searchLoop_exit_trunc p body b1 f e hc hb1]
        simp
      · rw [searchLoop_exit_plain p body f e hc]
        simp
    | some i =>
      have hi : i + p.length ≤ body.length := hA i rfl
      by_cases hc : (i : Int) - 60 > e
      · obtain ⟨b1, hb1⟩ := goSlice_isSome body 0 e ⟨by omega, by omega, by omega⟩
        obtain ⟨b2, hb2⟩ := goSlice_isSome body ((i : Int) - 60) (i : Int)
          ⟨by omega, by omega, by omega⟩
        obtain ⟨b3, hb3⟩ := goSlice_isSome body (i : Int) ((i : Int) + (p.length : Int))
          ⟨by omega, by omega, by omega⟩
        obtain ⟨b4, hb4⟩ := goSlice_isSome body ((i : Int) + (p.length : Int))
          ((body.length : Int)) ⟨by omega, by omega, by omega⟩
        have hl1 := goSlice_length _ _ _ _ hb1
        have hl2 := goSlice_length _ _ _ _ hb2
        have hl3 := goSlice_length _ _ _ _ hb3
        have hl4 := goSlice_length _ _ _ _ hb4
        have hlb2 : (((b1 ++ ellMark ++ b2 ++ hbMark ++ b3 ++ heMark ++ b4).length : Int))
            = e + 101 + (body.length : Int) - i := by
          simp only [List.length_append, ellMark_length, hbMark_length, heMark_length]
          push_cast
          omega
        obtain ⟨r, hr⟩ := indexAt_isSome
          (strToLower (b1 ++ ellMark ++ b2 ++ hbMark ++ b3 ++ heMark ++ b4)) p
          ((i : Int) - ((i : Int) - 60 - e) + 22 + 9 + (p.length : Int) + 10)
          ⟨by omega, by rw [strToLower_length, hlb2]; omega⟩
        rw [searchLoop_step_new p body b1 b2 b3 b4 f e i r hc hb1 hb2 hb3 hb4 hr]
        apply ih
        · omega
        · intro i2 hi2
          subst hi2
          have hbd := indexAt_bound _ p _ i2 hr
          rw [strToLower_length] at hbd
          exact hbd
      · obtain ⟨b1, hb1⟩ := goSlice_isSome body 0 (i : Int) ⟨by omega, by omega, by omega⟩
        obtain ⟨b3, hb3⟩ := goSlice_isSome body (i : Int) ((i : Int) + (p.length : Int))
          ⟨by omega, by omega, by omega⟩
        obtain ⟨b4, hb4⟩ := goSlice_isSome body ((i : Int) + (p.length : Int))
          ((body.length : Int)) ⟨by omega, by omega, by omega⟩
        have hl1 := goSlice_length _ _ _ _ hb1
        have hl3 := goSlice_length _ _ _ _ hb3
        have hl4 := goSlice_length _ _ _ _ hb4
        have hlb2 : (((b1 ++ hbMark ++ b3 ++ heMark ++ b4).length : Int))
            = 19 + (body.length : Int) := by
          simp only [List.length_append, hbMark_length, heMark_length]
          push_cast
          omega
        obtain ⟨r, hr⟩ := indexAt_isSome (strToLower (b1 ++ hbMark ++ b3 ++ heMark ++ b4)) p
          ((i : Int) + 9 + (p.length : Int) + 10)
          ⟨by omega, by rw [strToLower_length, hlb2]; omega⟩
        rw [searchLoop_step_merge p body b1 b3 b4 f e i r hc hb1 hb3 hb4 hr]
        apply ih
        · omega
        · intro i2 hi2
          subst hi2
          have hbd := indexAt_bound _ p _ i2 hr
          rw [strToLower_length] at hbd
          exact hbd

/-! ## Stripping markers and inserted ellipses from the output -/

/-- The literal body bytes of a segment: markers and the inserted
ellipsis text are deleted. -/
def segLit : Seg → Str
  | .lit l => l
  | _ => []

/-- The extractor output with every marker and every inserted ellipsis
deleted: only the literal body slices remain. -/
def stripSegs (segs : List Seg) : Str := (segs.map segLit).flatten

/-- `occs` starts at or after `m` and each occurrence is followed only
by occurrences at or after its own end. -/
def StartsFrom (L : Nat) : Nat → List Nat → Prop
  | _, [] => True
  | m, i :: rest => m ≤ i ∧ StartsFrom L (i + L) rest

theorem locAux_startsFrom (lb p : Str) :
    ∀ (fuel n : Nat), StartsFrom p.length n (locAux lb p fuel n)
  | 0, n => by simp [locAux, StartsFrom]
  | fuel + 1, n => by
      unfold locAux
      cases hidx : strIndex (lb.drop n) p with
      | none => simp [StartsFrom]
      | some j =>
        exact ⟨by omega, locAux_startsFrom lb p fuel (n + j + p.length)⟩

theorem drop_sublist_drop (B : Str) (k2 k : Nat) (h : k2 ≤ k) :
    B.drop k <+ B.drop k2 := by
  have : B.drop k = (B.drop k2).drop (k - k2) := by
    rw [List.drop_drop]
    congr 1
    omega
  rw [this]
  exact List.drop_sublist _ _

theorem seg_chain (B : Str) (a b : Nat) (s : Str) (hab : a ≤ b) (h : s <+ B.drop b) :
    seg B a b ++ s <+ B.drop a := by
  have hsplit : B.drop a = seg B a b ++ B.drop b := by
    have hb2 : a + (b - a) = b := by omega
    conv_lhs => rw [← List.take_append_drop (b - a) (B.drop a)]
    rw [List.drop_drop, hb2]
    rfl
  rw [hsplit]
  exact List.Sublist.append (List.Sublist.refl _) h

theorem stripSegs_append (a b : List Seg) :
    stripSegs (a ++ b) = stripSegs a ++ stripSegs b := by
  simp [stripSegs]

theorem stripSegs_cons (s : Seg) (r : List Seg) :
    stripSegs (s :: r) = segLit s ++ stripSegs r := by
  simp [stripSegs]

theorem stripSegs_buildSegs (B : Str) (L : Nat) :
    ∀ (occs : List Nat) (m : Nat), StartsFrom L m occs →
      stripSegs (buildSegs B L occs m) <+ B.drop m
  | [], m => by
      intro _
      by_cases h60 : m + 60 < B.length
      · have hstrip : stripSegs (buildSegs B L [] m) = seg B m (m + 60) := by
          simp [buildSegs, if_pos h60, stripSegs, ellSegs, segLit]
        rw [hstrip, seg]
        exact List.take_sublist _ _
      · have hstrip : stripSegs (buildSegs B L [] m) = B.drop m := by
          simp [buildSegs, if_neg h60, stripSegs, segLit]
        rw [hstrip]
  | i :: rest, m => by
      intro h
      obtain ⟨him, hrest⟩ := h
      have IH := stripSegs_buildSegs B L rest (i + L) hrest
      by_cases hw : m + 120 < i
      · have hstrip : stripSegs (buildSegs B L (i :: rest) m)
            = seg B m (m + 60) ++ (seg B (i - 60) i
              ++ (seg B i (i + L) ++ stripSegs (buildSegs B L rest (i + L)))) := by
          simp only [buildSegs, if_pos hw, hlSegs, ellSegs, List.append_assoc,
            List.cons_append, List.nil_append, stripSegs_append, stripSegs_cons, segLit]
        rw [hstrip]
        apply seg_chain B m (m + 60) _ (by omega)
        have inner : seg B (i - 60) i
            ++ (seg B i (i + L) ++ stripSegs (buildSegs B L rest (i + L)))
            <+ B.drop (i - 60) := by
          apply seg_chain B (i - 60) i _ (by omega)
          exact seg_chain B i (i + L) _ (by omega) IH
        exact inner.trans (drop_sublist_drop B (m + 60) (i - 60) (by omega))
      · have hstrip : stripSegs (buildSegs B L (i :: rest) m)
            = seg B m i ++ (seg B i (i + L) ++ stripSegs (buildSegs B L rest (i + L))) := by
          simp only [buildSegs, if_neg hw, hlSegs, List.append_assoc,
            List.cons_append, List.nil_append, stripSegs_append, stripSegs_cons, segLit]
        rw [hstrip]
        apply seg_chain B m i _ him
        exact seg_chain B i (i + L) _ (by omega) IH

/-- Stripping every marker and inserted ellipsis from the extractor's
output leaves an in-order concatenation of disjoint slices of the
original body: a sublist of `B`, though not in general a contiguous one. -/
theorem stripSegs_extractSegs (p B : Str) : stripSegs (extractSegs p B) <+ B := by
  unfold extractSegs
  cases hloc : locStarts p B with
  | nil =>
    show stripSegs [Seg.lit B] <+ B
    simp [stripSegs, segLit]
  | cons i rest =>
    have hsf : StartsFrom p.length 0 (locStarts p B) := locAux_startsFrom _ p _ 0
    rw [hloc] at hsf
    obtain ⟨_, hrest⟩ := hsf
    have IH := stripSegs_buildSegs B p.length rest (i + p.length) hrest
    by_cases hi : 60 < i
    · have hstrip : stripSegs ((ellSegs ++ [Seg.lit (seg B (i - 60) i)])
          ++ hlSegs (seg B i (i + p.length)) ++ buildSegs B p.length rest (i + p.length))
          = seg B (i - 60) i ++ (seg B i (i + p.length)
            ++ stripSegs (buildSegs B p.length rest (i + p.length))) := by
        simp only [hlSegs, ellSegs, List.append_assoc, List.cons_append, List.nil_append,
          stripSegs_append, stripSegs_cons, segLit]
      show stripSegs ((if 60 < i then ellSegs ++ [Seg.lit (seg B (i - 60) i)]
          else [Seg.lit (seg B 0 i)]) ++ hlSegs (seg B i (i + p.length))
          ++ buildSegs B p.length rest (i + p.length)) <+ B
      rw [if_pos hi, hstrip]
      have inner : seg B (i - 60) i ++ (seg B i (i + p.length)
          ++ stripSegs (buildSegs B p.length rest (i + p.length))) <+ B.drop (i - 60) := by
        apply seg_chain B (i - 60) i _ (by omega)
        exact seg_chain B i (i + p.length) _ (by omega) IH
      exact inner.trans (List.drop_sublist _ _)
    · have hstrip : stripSegs ([Seg.lit (seg B 0 i)]
          ++ hlSegs (seg B i (i + p.length)) ++ buildSegs B p.length rest (i + p.length))
          = seg B 0 i ++ (seg B i (i + p.length)
            ++ stripSegs (buildSegs B p.length rest (i + p.length))) := by
        simp only [hlSegs, List.append_assoc, List.cons_append, List.nil_append,
          stripSegs_append, stripSegs_cons, segLit]
      show stripSegs ((if 60 < i then ellSegs ++ [Seg.lit (seg B (i - 60) i)]
          else [Seg.lit (seg B 0 i)]) ++ hlSegs (seg B i (i + p.length))
          ++ buildSegs B p.length rest (i + p.length)) <+ B
      rw [if_neg hi, hstrip]
      have : seg B 0 i ++ (seg B i (i + p.length)
          ++ stripSegs (buildSegs B p.length rest (i + p.length))) <+ B.drop 0 := by
        apply seg_chain B 0 i _ (by omega)
        exact seg_chain B i (i + p.length) _ (by omega) IH
      simpa using this

/-! ## MarkerTokenizer and marker balance -/

/-- Token kinds of the marker tokenizer. -/
inductive Tok
  | txt
  | hlB
  | hlE
deriving DecidableEq, Repr

/-- Modelled from the spec: MarkerTokenizer's single-pass left-to-right
scan — on encountering the literal begin-marker substring emit a
`hlB` token and skip it, symmetrically `hlE` for the end-marker, any
other byte is literal text.  (The repository's `tokenize` helper and its
token kinds, used by `formatFTSSnippet`, live in a file that is not
under src/.) -/
def scanAux : Str → Nat → List Tok
  | [], _ => []
  | _ :: t, k + 1 => scanAux t k
  | c :: t, 0 =>
      if hbMark.isPrefixOf (c :: t) then .hlB :: scanAux t 8
      else if heMark.isPrefixOf (c :: t) then .hlE :: scanAux t 9
      else .txt :: scanAux t 0

def scanToks (s : Str) : List Tok := scanAux s 0

theorem scanAux_skip : ∀ (x r : Str), scanAux (x ++ r) x.length = scanAux r 0
  | [], r => rfl
  | c :: x, r => by
      show scanAux (x ++ r) x.length = scanAux r 0
      exact scanAux_skip x r

/-- Depth-0/1 automaton over the token stream: accepts exactly the
streams whose begin/end markers are balanced, never nested, and never
close before opening. -/
def chkBal : Bool → List Tok → Bool
  | d, [] => !d
  | d, .txt :: r => chkBal d r
  | d, .hlB :: r => if d then false else chkBal true r
  | d, .hlE :: r => if d then chkBal false r else false

/-- `pat` occurs somewhere in `s`. -/
def hasOcc (pat s : Str) : Bool := (strIndex s pat).isSome

theorem hasOcc_false_iff (pat s : Str) (hp : pat ≠ []) :
    hasOcc pat s = false ↔ ∀ q, ¬ pat <+: s.drop q := by
  constructor
  · intro h q
    cases hi : strIndex s pat with
    | none => exact strIndex_none s pat hp hi q
    | some j => rw [hasOcc, hi] at h; simp at h
  · intro h
    cases hi : strIndex s pat with
    | some j =>
      obtain ⟨h1, _, _⟩ := strIndex_spec _ _ hi
      exact absurd h1 (h j)
    | none => rw [hasOcc, hi]; rfl

theorem hasOcc_false_infix (pat s t : Str) (hp : pat ≠ []) (hst : t <:+: s)
    (h : hasOcc pat s = false) : hasOcc pat t = false := by
  rw [hasOcc_false_iff _ _ hp] at h ⊢
  intro q hq
  obtain ⟨xs, ys, rfl⟩ := hst
  apply h (xs.length + q)
  have h1 : (xs ++ t ++ ys).drop (xs.length + q) = t.drop q ++ ys.drop (q - t.length) := by
    rw [List.append_assoc, List.drop_append, List.drop_append_eq_append_drop]
  rw [h1]
  exact hq.trans (List.prefix_append _ _)

/-! Neither marker overlaps itself or the other: the checks below rule
out any occurrence of a marker that straddles a junction between a
literal slice and a following marker in the extractor's output. -/

theorem hb_overlap_hb : ∀ k, k < hbMark.length → 1 ≤ k →
    hbMark.drop k ≠ hbMark.take (hbMark.length - k) := by decide

theorem hb_overlap_he : ∀ k, k < hbMark.length → 1 ≤ k →
    hbMark.drop k ≠ heMark.take (hbMark.length - k) := by decide

theorem he_overlap_hb : ∀ k, k < heMark.length → 1 ≤ k →
    heMark.drop k ≠ hbMark.take (heMark.length - k) := by decide

theorem he_overlap_he : ∀ k, k < heMark.length → 1 ≤ k →
    heMark.drop k ≠ heMark.take (heMark.length - k) := by decide

theorem pref_split (pat x r : Str) (h : pat <+: x ++ r) (hlen : x.length < pat.length) :
    pat.drop x.length <+: r := by
  have ht := List.prefix_iff_eq_take.mp h
  rw [List.take_append_eq_append_take, List.take_of_length_le (by omega)] at ht
  rw [ht, List.drop_left]
  exact List.take_prefix _ _

theorem marker_junction_core (pat m2 : Str) (x r2 : Str)
    (hxnp : ¬ pat <+: x) (hx1 : 1 ≤ x.length)
    (hno : ∀ k, k < pat.length → 1 ≤ k → pat.drop k ≠ m2.take (pat.length - k))
    (hm2 : pat.length ≤ m2.length + 1)
    (h : pat <+: x ++ (m2 ++ r2)) : False := by
  by_cases hlen : pat.length ≤ x.length
  · apply hxnp
    have ht := List.prefix_iff_eq_take.mp h
    rw [List.take_append_of_le_length hlen] at ht
    rw [ht]
    exact List.take_prefix _ _
  · push_neg at hlen
    have hdrop := pref_split pat x (m2 ++ r2) h hlen
    have hdl : (pat.drop x.length).length = pat.length - x.length := by simp
    have h2 := List.prefix_iff_eq_take.mp hdrop
    rw [hdl, List.take_append_of_le_length (by omega)] at h2
    exact hno x.length hlen hx1 h2

theorem no_marker_pref_junction (x r : Str)
    (hx9 : ¬ hbMark <+: x) (hx10 : ¬ heMark <+: x) (hx1 : 1 ≤ x.length)
    (hr : r = [] ∨ (∃ r2, r = hbMark ++ r2) ∨ (∃ r2, r = heMark ++ r2)) :
    ¬ hbMark <+: (x ++ r) ∧ ¬ heMark <+: (x ++ r) := by
  rcases hr with rfl | ⟨r2, rfl⟩ | ⟨r2, rfl⟩
  · constructor
    · intro h
      by_cases hlen : hbMark.length ≤ x.length
      · apply hx9
        have ht := List.prefix_iff_eq_take.mp h
        rw [List.take_append_of_le_length hlen] at ht
        rw [ht]
        exact List.take_prefix _ _
      · have := h.length_le
        simp only [List.length_append, List.length_nil] at this
        omega
    · intro h
      by_cases hlen : heMark.length ≤ x.length
      · apply hx10
        have ht := List.prefix_iff_eq_take.mp h
        rw [List.take_append_of_le_length hlen] at ht
        rw [ht]
        exact List.take_prefix _ _
      · have := h.length_le
        simp only [List.length_append, List.length_nil] at this
        omega
  · exact ⟨fun h => marker_junction_core hbMark hbMark x r2 hx9 hx1 hb_overlap_hb
        (by simp) h,
      fun h => marker_junction_core heMark hbMark x r2 hx10 hx1 he_overlap_hb
        (by simp [hbMark_length, heMark_length]) h⟩
  · exact ⟨fun h => marker_junction_core hbMark heMark x r2 hx9 hx1 hb_overlap_he
        (by simp [hbMark_length, heMark_length]) h,
      fun h => marker_junction_core heMark heMark x r2 hx10 hx1 he_overlap_he
        (by simp) h⟩

theorem isPrefixOf_eq_false {a b : Str} (h : ¬ a <+: b) : a.isPrefixOf b = false := by
  cases hb : a.isPrefixOf b
  · rfl
  · exact absurd (by simpa using hb) h

theorem hasOcc_cons (pat : Str) (c : Char) (x : Str) (hp : pat ≠ [])
    (h : hasOcc pat (c :: x) = false) : hasOcc pat x = false := by
  rw [hasOcc_false_iff _ _ hp] at h ⊢
  intro q
  simpa using h (q + 1)

theorem scanAux_lit (x : Str) :
    ∀ (r : Str), hasOcc hbMark x = false → hasOcc heMark x = false →
    (r = [] ∨ (∃ r2, r = hbMark ++ r2) ∨ (∃ r2, r = heMark ++ r2)) →
    scanAux (x ++ r) 0 = List.replicate x.length .txt ++ scanAux r 0 := by
  induction x with
  | nil => intro r _ _ _; simp
  | cons c t ihx =>
    intro r hx9 hx10 hr
    have h9 : ¬ hbMark <+: (c :: t) := by
      have := (hasOcc_false_iff hbMark (c :: t) (by decide)).mp hx9 0
      simpa using this
    have h10 : ¬ heMark <+: (c :: t) := by
      have := (hasOcc_false_iff heMark (c :: t) (by decide)).mp hx10 0
      simpa using this
    have hj := no_marker_pref_junction (c :: t) r h9 h10 (by simp) hr
    have hx9t : hasOcc hbMark t = false := hasOcc_cons hbMark c t (by decide) hx9
    have hx10t : hasOcc heMark t = false := hasOcc_cons heMark c t (by decide) hx10
    have hstep : scanAux ((c :: t) ++ r) 0 = .txt :: scanAux (t ++ r) 0 := by
      show scanAux (c :: (t ++ r)) 0 = _
      rw [scanAux]
      rw [isPrefixOf_eq_false (by simpa using hj.1), isPrefixOf_eq_false (by simpa using hj.2)]
      simp
    rw [hstep, ihx r hx9t hx10t hr]
    simp [List.replicate_succ]

theorem scanAux_hb (r : Str) : scanAux (hbMark ++ r) 0 = .hlB :: scanAux r 0 := by
  have h1 : hbMark.isPrefixOf ('<' :: (['d', 'n', 'o', 't', 'e', 'h', 'l', '>'] ++ r)) = true := by
    rw [ List.isPrefixOf_iff_prefix]
    exact List.prefix_append hbMark r
  show scanAux ('<' :: (['d', 'n', 'o', 't', 'e', 'h', 'l', '>'] ++ r)) 0 = _
  rw [scanAux, h1]
  simp only [if_true]
  exact congrArg (Tok.hlB :: ·) (scanAux_skip ['d', 'n', 'o', 't', 'e', 'h', 'l', '>'] r)

theorem scanAux_he (r : Str) : scanAux (heMark ++ r) 0 = .hlE :: scanAux r 0 := by
  have h0 : ¬ hbMark <+: ('<' :: (['/', 'd', 'n', 'o', 't', 'e', 'h', 'l', '>'] ++ r)) := by
    intro h
    have ht := List.prefix_iff_eq_take.mp h
    rw [show ('<' :: (['/', 'd', 'n', 'o', 't', 'e', 'h', 'l', '>'] ++ r)) = heMark ++ r
      from rfl] at ht
    rw [List.take_append_of_le_length (by decide)] at ht
    exact absurd ht (by decide)
  have h1 : heMark.isPrefixOf ('<' :: (['/', 'd', 'n', 'o', 't', 'e', 'h', 'l', '>'] ++ r)) = true := by
    rw [ List.isPrefixOf_iff_prefix]
    exact List.prefix_append heMark r
  show scanAux ('<' :: (['/', 'd', 'n', 'o', 't', 'e', 'h', 'l', '>'] ++ r)) 0 = _
  rw [scanAux, isPrefixOf_eq_false h0, h1]
  simp only [Bool.false_eq_true, if_false, if_true]
  exact congrArg (Tok.hlE :: ·) (scanAux_skip ['/', 'd', 'n', 'o', 't', 'e', 'h', 'l', '>'] r)

/-! ## Token view of the structured output -/

def segToks : Seg → List Tok
  | .lit l => List.replicate l.length .txt
  | .dots => List.replicate 3 .txt
  | .mhb => [.hlB]
  | .mhe => [.hlE]

def toksOfSegs (segs : List Seg) : List Tok := (segs.map segToks).flatten

theorem toksOfSegs_cons (s : Seg) (r : List Seg) :
    toksOfSegs (s :: r) = segToks s ++ toksOfSegs r := by
  simp [toksOfSegs]

theorem toksOfSegs_append (a b : List Seg) :
    toksOfSegs (a ++ b) = toksOfSegs a ++ toksOfSegs b := by
  simp [toksOfSegs]

/-- The next segment (if any) is a marker, so the scan of a preceding
literal cannot run into half of a marker. -/
def headMarker : List Seg → Prop
  | [] => True
  | .mhb :: _ => True
  | .mhe :: _ => True
  | _ => False

/-- Scan-safety of a segment list: literal payloads contain no marker
occurrence, and every literal is followed by a marker or the end. -/
def ScanOK : List Seg → Prop
  | [] => True
  | .lit l :: r =>
      hasOcc hbMark l = false ∧ hasOcc heMark l = false ∧ headMarker r ∧ ScanOK r
  | .dots :: r => headMarker r ∧ ScanOK r
  | .mhb :: r => ScanOK r
  | .mhe :: r => ScanOK r

theorem flattenSegs_shape (r : List Seg) (h : headMarker r) :
    flattenSegs r = [] ∨ (∃ r2, flattenSegs r = hbMark ++ r2)
      ∨ (∃ r2, flattenSegs r = heMark ++ r2) := by
  match r with
  | [] => exact Or.inl rfl
  | .mhb :: r2 =>
      exact Or.inr (Or.inl ⟨flattenSegs r2, by simp [flattenSegs_cons, segStr]⟩)
  | .mhe :: r2 =>
      exact Or.inr (Or.inr ⟨flattenSegs r2, by simp [flattenSegs_cons, segStr]⟩)
  | .lit _ :: _ => exact h.elim
  | .dots :: _ => exact h.elim

theorem scanToks_flatten : ∀ (segs : List Seg), ScanOK segs →
    scanToks (flattenSegs segs) = toksOfSegs segs
  | [], _ => rfl
  | .lit l :: r, h => by
      obtain ⟨h1, h2, hhm, hOK⟩ := h
      rw [flattenSegs_cons]
      show scanAux (l ++ flattenSegs r) 0 = _
      rw [scanAux_lit l (flattenSegs r) h1 h2 (flattenSegs_shape r hhm)]
      rw [show scanAux (flattenSegs r) 0 = scanToks (flattenSegs r) from rfl]
      rw [scanToks_flatten r hOK, toksOfSegs_cons]
      rfl
  | .dots :: r, h => by
      obtain ⟨hhm, hOK⟩ := h
      rw [flattenSegs_cons]
      show scanAux (dotsMark ++ flattenSegs r) 0 = _
      rw [scanAux_lit dotsMark (flattenSegs r) (by decide) (by decide)
        (flattenSegs_shape r hhm)]
      rw [show scanAux (flattenSegs r) 0 = scanToks (flattenSegs r) from rfl]
      rw [scanToks_flatten r hOK, toksOfSegs_cons]
      rfl
  | .mhb :: r, h => by
      rw [flattenSegs_cons]
      show scanAux (hbMark ++ flattenSegs r) 0 = _
      rw [scanAux_hb]
      rw [show scanAux (flattenSegs r) 0 = scanToks (flattenSegs r) from rfl]
      rw [scanToks_flatten r h, toksOfSegs_cons]
      rfl
  | .mhe :: r, h => by
      rw [flattenSegs_cons]
      show scanAux (heMark ++ flattenSegs r) 0 = _
      rw [scanAux_he]
      rw [show scanAux (flattenSegs r) 0 = scanToks (flattenSegs r) from rfl]
      rw [scanToks_flatten r h, toksOfSegs_cons]
      rfl

theorem seg_isInfix (B : Str) (a b : Nat) : seg B a b <:+: B :=
  List.infix_iff_prefix_suffix.mpr ⟨B.drop a, List.take_prefix _ _, List.drop_suffix _ _⟩

theorem ScanOK_buildSegs (B : Str) (L : Nat)
    (h1 : hasOcc hbMark B = false) (h2 : hasOcc heMark B = false) :
    ∀ (occs : List Nat) (m : Nat), ScanOK (buildSegs B L occs m)
  | [], m => by
      have hs1 : ∀ a b, hasOcc hbMark (seg B a b) = false := fun a b =>
        hasOcc_false_infix _ B _ (by decide) (seg_isInfix B a b) h1
      have hs2 : ∀ a b, hasOcc heMark (seg B a b) = false := fun a b =>
        hasOcc_false_infix _ B _ (by decide) (seg_isInfix B a b) h2
      have hd1 : hasOcc hbMark (B.drop m) = false :=
        hasOcc_false_infix _ B _ (by decide) (List.drop_suffix m B).isInfix h1
      have hd2 : hasOcc heMark (B.drop m) = false :=
        hasOcc_false_infix _ B _ (by decide) (List.drop_suffix m B).isInfix h2
      by_cases h60 : m + 60 < B.length
      · simp only [buildSegs, if_pos h60, ellSegs]
        exact ⟨hs1 _ _, hs2 _ _, trivial, trivial, trivial⟩
      · simp only [buildSegs, if_neg h60]
        exact ⟨hd1, hd2, trivial, trivial⟩
  | i :: rest, m => by
      have hs1 : ∀ a b, hasOcc hbMark (seg B a b) = false := fun a b =>
        hasOcc_false_infix _ B _ (by decide) (seg_isInfix B a b) h1
      have hs2 : ∀ a b, hasOcc heMark (seg B a b) = false := fun a b =>
        hasOcc_false_infix _ B _ (by decide) (seg_isInfix B a b) h2
      have IH := ScanOK_buildSegs B L h1 h2 rest (i + L)
      by_cases hw : m + 120 < i
      · simp only [buildSegs, if_pos hw, ellSegs, hlSegs, List.append_assoc,
          List.cons_append, List.nil_append]
        exact ⟨hs1 _ _, hs2 _ _, trivial, trivial, hs1 _ _, hs2 _ _, trivial,
          hs1 _ _, hs2 _ _, trivial, IH⟩
      · simp only [buildSegs, if_neg hw, hlSegs, List.append_assoc,
          List.cons_append, List.nil_append]
        exact ⟨hs1 _ _, hs2 _ _, trivial, hs1 _ _, hs2 _ _, trivial, IH⟩

theorem ScanOK_extractSegs (p B : Str)
    (h1 : hasOcc hbMark B = false) (h2 : hasOcc heMark B = false) :
    ScanOK (extractSegs p B) := by
  have hs1 : ∀ a b, hasOcc hbMark (seg B a b) = false := fun a b =>
    hasOcc_false_infix _ B _ (by decide) (seg_isInfix B a b) h1
  have hs2 : ∀ a b, hasOcc heMark (seg B a b) = false := fun a b =>
    hasOcc_false_infix _ B _ (by decide) (seg_isInfix B a b) h2
  unfold extractSegs
  cases hloc : locStarts p B with
  | nil => exact ⟨h1, h2, trivial, trivial⟩
  | cons i rest =>
    have IH := ScanOK_buildSegs B p.length h1 h2 rest (i + p.length)
    show ScanOK ((if 60 < i then ellSegs ++ [Seg.lit (seg B (i - 60) i)]
        else [Seg.lit (seg B 0 i)]) ++ hlSegs (seg B i (i + p.length))
        ++ buildSegs B p.length rest (i + p.length))
    by_cases hi : 60 < i
    · simp only [if_pos hi, ellSegs, hlSegs, List.append_assoc, List.cons_append,
        List.nil_append]
      exact ⟨trivial, hs1 _ _, hs2 _ _, trivial, hs1 _ _, hs2 _ _, trivial, IH⟩
    · simp only [if_neg hi, hlSegs, List.append_assoc, List.cons_append, List.nil_append]
      exact ⟨hs1 _ _, hs2 _ _, trivial, hs1 _ _, hs2 _ _, trivial, IH⟩

/-! ## Balance of the token stream -/

theorem chkBal_replicate (d : Bool) (n : Nat) (r : List Tok) :
    chkBal d (List.replicate n .txt ++ r) = chkBal d r := by
  induction n with
  | zero => rfl
  | succ k ihk => simpa [List.replicate_succ, chkBal] using ihk

theorem chkBal_replicate_nil (d : Bool) (n : Nat) :
    chkBal d (List.replicate n .txt) = !d := by
  simpa [chkBal] using chkBal_replicate d n []

theorem toksOfSegs_nil : toksOfSegs [] = [] := rfl

theorem chkBal_buildSegs (B : Str) (L : Nat) :
    ∀ (occs : List Nat) (m : Nat),
      chkBal false (toksOfSegs (buildSegs B L occs m)) = true
  | [], m => by
      by_cases h60 : m + 60 < B.length
      · simp [buildSegs, if_pos h60, ellSegs, toksOfSegs_cons, segToks,
          chkBal_replicate, chkBal_replicate_nil, chkBal, toksOfSegs_nil]
      · simp [buildSegs, if_neg h60, toksOfSegs_cons, segToks,
          chkBal_replicate, chkBal_replicate_nil, chkBal, toksOfSegs_nil]
  | i :: rest, m => by
      have IH := chkBal_buildSegs B L rest (i + L)
      by_cases hw : m + 120 < i
      · simp [buildSegs, if_pos hw, ellSegs, hlSegs, toksOfSegs_append, toksOfSegs_cons,
          segToks, chkBal_replicate, chkBal_replicate_nil, chkBal, List.append_assoc, IH]
      · simp [buildSegs, if_neg hw, hlSegs, toksOfSegs_append, toksOfSegs_cons,
          segToks, chkBal_replicate, chkBal_replicate_nil, chkBal, List.append_assoc, IH]

theorem chkBal_extractSegs (p B : Str) :
    chkBal false (toksOfSegs (extractSegs p B)) = true := by
  unfold extractSegs
  cases hloc : locStarts p B with
  | nil => simp [toksOfSegs_cons, segToks, chkBal_replicate, chkBal_replicate_nil, chkBal, toksOfSegs_nil]
  | cons i rest =>
    have IH := chkBal_buildSegs B p.length rest (i + p.length)
    show chkBal false (toksOfSegs ((if 60 < i then ellSegs ++ [Seg.lit (seg B (i - 60) i)]
        else [Seg.lit (seg B 0 i)]) ++ hlSegs (seg B i (i + p.length))
        ++ buildSegs B p.length rest (i + p.length))) = true
    by_cases hi : 60 < i
    · simp [if_pos hi, ellSegs, hlSegs, toksOfSegs_append, toksOfSegs_cons,
        segToks, chkBal_replicate, chkBal_replicate_nil, chkBal, List.append_assoc, IH]
    · simp [if_neg hi, hlSegs, toksOfSegs_append, toksOfSegs_cons,
        segToks, chkBal_replicate, chkBal_replicate_nil, chkBal, List.append_assoc, IH]

theorem count_buildSegs (B : Str) (L : Nat) :
    ∀ (occs : List Nat) (m : Nat),
      (toksOfSegs (buildSegs B L occs m)).count Tok.hlB
        = (toksOfSegs (buildSegs B L occs m)).count Tok.hlE
  | [], m => by
      by_cases h60 : m + 60 < B.length
      · simp [buildSegs, if_pos h60, ellSegs, toksOfSegs_cons, segToks, toksOfSegs,
          List.count_append, List.count_replicate]
      · simp [buildSegs, if_neg h60, toksOfSegs_cons, segToks, toksOfSegs,
          List.count_append, List.count_replicate]
  | i :: rest, m => by
      have IH := count_buildSegs B L rest (i + L)
      by_cases hw : m + 120 < i
      · simp [buildSegs, if_pos hw, ellSegs, hlSegs, toksOfSegs_append, toksOfSegs_cons,
          segToks, toksOfSegs_nil, List.count_append, List.count_replicate, IH]
      · simp [buildSegs, if_neg hw, hlSegs, toksOfSegs_append, toksOfSegs_cons,
          segToks, toksOfSegs_nil, List.count_append, List.count_replicate, IH]

theorem count_extractSegs (p B : Str) :
    (toksOfSegs (extractSegs p B)).count Tok.hlB
      = (toksOfSegs (extractSegs p B)).count Tok.hlE := by
  unfold extractSegs
  cases hloc : locStarts p B with
  | nil => simp [toksOfSegs_cons, segToks, toksOfSegs_nil, List.count_replicate]
  | cons i rest =>
    have IH := count_buildSegs B p.length rest (i + p.length)
    show (toksOfSegs ((if 60 < i then ellSegs ++ [Seg.lit (seg B (i - 60) i)]
        else [Seg.lit (seg B 0 i)]) ++ hlSegs (seg B i (i + p.length))
        ++ buildSegs B p.length rest (i + p.length))).count Tok.hlB = _
    by_cases hi : 60 < i
    · simp [if_pos hi, ellSegs, hlSegs, toksOfSegs_append, toksOfSegs_cons,
        segToks, toksOfSegs_nil, List.count_append, List.count_replicate, IH]
    · simp [if_neg hi, hlSegs, toksOfSegs_append, toksOfSegs_cons,
        segToks, toksOfSegs_nil, List.count_append, List.count_replicate, IH]

/-! ## Newline normalization (formatFTSSnippet) -/

/-- Modelled from the spec: `newLineReg.ReplaceAllString(s, " ")` as
`formatFTSSnippet` applies it — each newline sequence (`\r\n` or `\n`)
becomes one space.  (`newLineReg`, like `tokenize`, is declared in a
file of the search package that is not under src/.) -/
def normalizeNewlines : Str → Str
  | [] => []
  | [c] => if c = '\n' then [' '] else [c]
  | c :: d :: rest =>
      if c = '\n' then ' ' :: normalizeNewlines (d :: rest)
      else if c = '\r' ∧ d = '\n' then ' ' :: normalizeNewlines rest
      else c :: normalizeNewlines (d :: rest)

/-- The marked-up body the pipeline hands to the tokenizer: the snippet
loop runs on the raw row body first, `formatFTSSnippet` strips newlines
from its output afterwards. -/
def pipelineMarked (p B : Str) : RunRes :=
  match snippetRun p B with
  | .ok o => .ok (normalizeNewlines o)
  | r => r

theorem normalize_eq_self : ∀ (B : Str), '\n' ∉ B → normalizeNewlines B = B
  | [], _ => rfl
  | [c], h => by
      have hc : c ≠ '\n' := fun e => h (e ▸ List.mem_cons_self _ _)
      simp only [normalizeNewlines, if_neg hc]
  | c :: d :: rest, h => by
      have hc : c ≠ '\n' := fun e => h (e ▸ List.mem_cons_self _ _)
      have hr : '\n' ∉ d :: rest := fun hm => h (List.mem_cons_of_mem _ hm)
      have hd : d ≠ '\n' := fun e => hr (e ▸ List.mem_cons_self _ _)
      simp only [normalizeNewlines, if_neg hc]
      rw [if_neg (by exact fun hcd => hd hcd.2)]
      rw [normalize_eq_self (d :: rest) hr]

theorem mem_flatten_buildSegs (B : Str) (L : Nat) :
    ∀ (occs : List Nat) (m : Nat) (c : Char),
      c ∈ flattenSegs (buildSegs B L occs m) →
      c ∈ B ∨ c ∈ hbMark ∨ c ∈ heMark ∨ c ∈ dotsMark
  | [], m, c => by
      intro hc
      by_cases h60 : m + 60 < B.length
      · simp only [buildSegs, if_pos h60, ellSegs, flattenSegs_cons, flattenSegs_nil,
          segStr, List.mem_append, List.append_nil] at hc
        rcases hc with hc | hc | hc | hc
        · exact Or.inl ((seg_isInfix B m (m + 60)).sublist.subset hc)
        · exact Or.inr (Or.inl hc)
        · exact Or.inr (Or.inr (Or.inr hc))
        · exact Or.inr (Or.inr (Or.inl hc))
      · simp only [buildSegs, if_neg h60, flattenSegs_cons, flattenSegs_nil,
          segStr, List.append_nil] at hc
        exact Or.inl ((List.drop_sublist m B).subset hc)
  | i :: rest, m, c => by
      intro hc
      have IH := mem_flatten_buildSegs B L rest (i + L) c
      by_cases hw : m + 120 < i
      · simp only [buildSegs, if_pos hw, ellSegs, hlSegs, flattenSegs_append,
          flattenSegs_cons, flattenSegs_nil, segStr, List.mem_append,
          List.append_nil, List.append_assoc, List.cons_append, List.nil_append] at hc
        rcases hc with hc | hc | hc | hc | hc | hc | hc | hc | hc
        · exact Or.inl ((seg_isInfix B m (m + 60)).sublist.subset hc)
        · exact Or.inr (Or.inl hc)
        · exact Or.inr (Or.inr (Or.inr hc))
        · exact Or.inr (Or.inr (Or.inl hc))
        · exact Or.inl ((seg_isInfix B (i - 60) i).sublist.subset hc)
        · exact Or.inr (Or.inl hc)
        · exact Or.inl ((seg_isInfix B i (i + L)).sublist.subset hc)
        · exact Or.inr (Or.inr (Or.inl hc))
        · exact IH hc
      · simp only [buildSegs, if_neg hw, hlSegs, flattenSegs_append,
          flattenSegs_cons, flattenSegs_nil, segStr, List.mem_append,
          List.append_nil, List.append_assoc, List.cons_append, List.nil_append] at hc
        rcases hc with hc | hc | hc | hc | hc
        · exact Or.inl ((seg_isInfix B m i).sublist.subset hc)
        · exact Or.inr (Or.inl hc)
        · exact Or.inl ((seg_isInfix B i (i + L)).sublist.subset hc)
        · exact Or.inr (Or.inr (Or.inl hc))
        · exact IH hc

theorem mem_flatten_extractSegs (p B : Str) (c : Char)
    (hc : c ∈ flattenSegs (extractSegs p B)) :
    c ∈ B ∨ c ∈ hbMark ∨ c ∈ heMark ∨ c ∈ dotsMark := by
  cases hloc : locStarts p B with
  | nil =>
    have hext : extractSegs p B = [Seg.lit B] := by
      unfold extractSegs
      rw [hloc]
    rw [hext] at hc
    simp only [flattenSegs_cons, flattenSegs_nil, segStr, List.append_nil] at hc
    exact Or.inl hc
  | cons i rest =>
    have hext : extractSegs p B = (if 60 < i then ellSegs ++ [Seg.lit (seg B (i - 60) i)]
        else [Seg.lit (seg B 0 i)]) ++ hlSegs (seg B i (i + p.length))
        ++ buildSegs B p.length rest (i + p.length) := by
      unfold extractSegs
      rw [hloc]
    rw [hext] at hc
    have IH := mem_flatten_buildSegs B p.length rest (i + p.length) c
    by_cases hi : 60 < i
    · rw [if_pos hi] at hc
      simp only [ellSegs, hlSegs, flattenSegs_append, flattenSegs_cons, flattenSegs_nil,
        segStr, List.mem_append, List.append_nil, List.append_assoc, List.cons_append,
        List.nil_append] at hc
      rcases hc with hc | hc | hc | hc | hc | hc | hc
      · exact Or.inr (Or.inl hc)
      · exact Or.inr (Or.inr (Or.inr hc))
      · exact Or.inr (Or.inr (Or.inl hc))
      · exact Or.inl ((seg_isInfix B (i - 60) i).sublist.subset hc)
      · exact Or.inr (Or.inl hc)
      · exact Or.inl ((seg_isInfix B i (i + p.length)).sublist.subset hc)
      · rcases hc with hc | hc
        · exact Or.inr (Or.inr (Or.inl hc))
        · exact IH hc
    · rw [if_neg hi] at hc
      simp only [hlSegs, flattenSegs_append, flattenSegs_cons, flattenSegs_nil,
        segStr, List.mem_append, List.append_nil, List.append_assoc, List.cons_append,
        List.nil_append] at hc
      rcases hc with hc | hc | hc | hc
      · exact Or.inl ((seg_isInfix B 0 i).sublist.subset hc)
      · exact Or.inr (Or.inl hc)
      · exact Or.inl ((seg_isInfix B i (i + p.length)).sublist.subset hc)
      · rcases hc with hc | hc
        · exact Or.inr (Or.inr (Or.inl hc))
        · exact IH hc

/-! ## Completeness and ordering of the locator -/

theorem locAux_complete (lb p : Str) (hp : p ≠ []) :
    ∀ (fuel n q : Nat), lb.length + 1 ≤ fuel + n → n ≤ q → p <+: lb.drop q →
      ∃ i ∈ locAux lb p fuel n, i ≤ q ∧ q < i + p.length
  | 0, n, q => by
      intro hfuel hnq hq
      exfalso
      have hnil : lb.drop q = [] := List.drop_eq_nil_of_le (by omega)
      rw [hnil] at hq
      exact hp (List.prefix_nil.mp hq)
  | fuel + 1, n, q => by
      intro hfuel hnq hq
      unfold locAux
      cases hidx : strIndex (lb.drop n) p with
      | none =>
        exfalso
        have hnone := strIndex_none (lb.drop n) p hp hidx (q - n)
        rw [List.drop_drop, show n + (q - n) = q from by omega] at hnone
        exact hnone hq
      | some j =>
        obtain ⟨hj1, hj2, hj3⟩ := strIndex_spec _ p hidx
        have hpl := length_pos_of_ne_nil hp
        have hdl : (lb.drop n).length = lb.length - n := by simp
        by_cases hq1 : q < n + j
        · exfalso
          have hmin := hj3 (q - n) (by omega)
          rw [List.drop_drop, show n + (q - n) = q from by omega] at hmin
          exact hmin hq
        · by_cases hq2 : q < n + j + p.length
          · exact ⟨n + j, List.mem_cons_self _ _, by omega, by omega⟩
          · obtain ⟨i, hi, hle, hlt⟩ := locAux_complete lb p hp fuel (n + j + p.length) q
              (by omega) (by omega) hq
            exact ⟨i, List.mem_cons_of_mem _ hi, hle, hlt⟩

theorem locAux_chain (lb p : Str) (hp : p ≠ []) :
    ∀ (fuel n : Nat), List.Chain' (fun a b => a + p.length ≤ b) (locAux lb p fuel n)
  | 0, n => by simp [locAux]
  | fuel + 1, n => by
      unfold locAux
      cases hidx : strIndex (lb.drop n) p with
      | none => simp
      | some j =>
        refine List.chain'_cons'.mpr ⟨?_, locAux_chain lb p hp fuel (n + j + p.length)⟩
        intro b hb
        have hmem := locAux_mem lb p hp fuel (n + j + p.length) b
          (List.mem_of_mem_head? hb)
        omega

/-! # Claim theorems

Concrete fixtures.  `fillChars n k` is a run of `n` distinct bytes
starting at code `k`, containing neither `a`, `b` nor any marker byte
pattern, so occurrence positions are fully controlled. -/

set_option maxRecDepth 100000

def fillChars (n k : Nat) : Str := (List.range n).map fun t => Char.ofNat (k + t)

/-- Two occurrences of `ab`, at 0 and 100: the gap (98) is larger than
the context 60 — the spec's rule starts a new window — yet not larger
than 120, so the code merges. -/
def mergeGapBody : Str := ['a', 'b'] ++ fillChars 98 99 ++ ['a', 'b', 'z', 'z']

def mergeGapOut : Str := flattenSegs (extractSegs ['a', 'b'] mergeGapBody)

/-- 130 bytes with no occurrence of `ab` at all. -/
def noMatchBody : Str := fillChars 130 99

/-- A single occurrence of `ab` starting at offset 70 > 60; no `<` byte
occurs in the body itself. -/
def lateFirstBody : Str := fillChars 70 129 ++ ['a', 'b']

def lateFirstOut : Str := flattenSegs (extractSegs ['a', 'b'] lateFirstBody)

/-- A body that itself contains the literal end marker. -/
def strayMarkerBody : Str :=
  ['<', '/', 'd', 'n', 'o', 't', 'e', 'h', 'l', '>', ' ', 'z']

def strayMarkerOut : Str := flattenSegs (extractSegs ['z'] strayMarkerBody)

/-- Occurrences of `ab` at 0 and 130 (gap > 120): the output has two
windows with an omitted stretch between them. -/
def twoWindowBody : Str := ['a', 'b'] ++ fillChars 128 129 ++ ['a', 'b', 'x', 'y', 'z']

/-- Claim C1, as stated, is false: in `mergeGapBody` the second
occurrence starts at 100, `windowStart = max(100 - 60, 2) = 40` is
strictly greater than the cursor `emitted = 2`, so the spec's rule opens
a new window with an ellipsis — but the code's output contains no
ellipsis marker at all: the occurrence merged. -/
theorem c1_counterexample :
    locStarts ['a', 'b'] mergeGapBody = [0, 100] ∧
    2 + 60 < 100 ∧
    snippetRun ['a', 'b'] mergeGapBody = .ok mergeGapOut ∧
    hasOcc ellMark mergeGapOut = false := by decide

/-- Claim C1 (amended): the loop's cursor `e` sits one context width
past the previous occurrence's end, so an occurrence `o` starts a new
window exactly when `o.start - C > emitted + C` (equivalently
`o.start > emitted + 2C`); otherwise it merges, appending the literal
slice `body[emitted:o.start]` with no ellipsis.  The first conjunct is
the refinement of the loop onto the structured extraction; the second
states the merge equation; the third characterises the ellipsis (the
`.dots` segment) by the `2C` threshold. -/
theorem c1_merge_rule (p B : Str) (hp : p ≠ []) :
    snippetRun p B = .ok (flattenSegs (extractSegs p B)) ∧
    (∀ (i m : Nat) (rest : List Nat), ¬ m + 2 * 60 < i →
      buildSegs B p.length (i :: rest) m
        = [Seg.lit (seg B m i), Seg.mhb, Seg.lit (seg B i (i + p.length)), Seg.mhe]
          ++ buildSegs B p.length rest (i + p.length)) ∧
    (∀ (i m : Nat) (rest : List Nat),
      (((buildSegs B p.length (i :: rest) m).drop 2).head? = some Seg.dots)
        ↔ m + 2 * 60 < i) := by
  refine ⟨snippetRun_eq_segs p B hp, ?_, ?_⟩
  · intro i m rest him
    simp [buildSegs, if_neg (show ¬ m + 120 < i by omega), hlSegs]
  · intro i m rest
    by_cases hw : m + 120 < i
    · simp [buildSegs, if_pos hw, ellSegs, hlSegs]
      omega
    · simp [buildSegs, if_neg hw, hlSegs]
      omega

/-- Claim C1 witness. -/
theorem c1_merge_rule_witness :
    snippetRun ['a'] ['a'] = .ok (flattenSegs (extractSegs ['a'] ['a'])) :=
  (c1_merge_rule ['a'] ['a'] (by decide)).1

/-- Claim C2, as stated, is false: on a 130-byte body with no
occurrence the code returns the whole untouched body, not its first
`2*60` bytes. -/
theorem c2_counterexample :
    locStarts ['a', 'b'] noMatchBody = [] ∧
    snippetRun ['a', 'b'] noMatchBody = .ok noMatchBody ∧
    noMatchBody.length = 130 ∧
    noMatchBody.take (2 * 60) ≠ noMatchBody := by decide

/-- Claim C2 (amended): when the locator finds no occurrence the loop
body never runs, the cursor `e` stays 0, the final truncation is
skipped, and the extractor returns the whole body, untouched and
unmarked, whatever its length. -/
theorem c2_zero_occurrence (p B : Str) (hp : p ≠ []) (h0 : locStarts p B = []) :
    snippetRun p B = .ok B := by
  rw [snippetRun_eq_segs p B hp]
  unfold extractSegs
  rw [h0]
  simp [flattenSegs, segStr]

/-- Claim C2 witness. -/
theorem c2_zero_occurrence_witness :
    snippetRun ['q'] ['a', 'b', 'c'] = .ok ['a', 'b', 'c'] :=
  c2_zero_occurrence ['q'] ['a', 'b', 'c'] (by decide) (by decide)

/-- Claim C3, as stated, is false: with the two-term query
`["b", "c"]` the pipeline highlights the case-folded *first* term `b`
in the body `abc`, while the spec's full-phrase contract (phrase
`b c`) would find nothing and leave the body unmarked. -/
theorem c3_counterexample :
    newRunSnippet [['b'], ['c']] ['a', 'b', 'c']
      ≠ snippetRun (specFullPhrase [['b'], ['c']]) ['a', 'b', 'c'] := by decide

/-- Claim C3 (amended): the phrase located and highlighted is
`strings.ToLower(args[0])` — the case-folded first CLI argument only,
not the full multi-term phrase (the full phrase is used, `%`-joined,
only in the SQL LIKE filter); the context size is the literal 60.  For
single-term queries the first term is the full phrase, so the spec's
contract holds for them. -/
theorem c3_first_term_only (args : List Str) (body : Str) (_h : args ≠ []) :
    newRunSnippet args body = snippetRun (strToLower (args.headD [])) body ∧
    specFullPhrase [args.headD []] = strToLower (args.headD []) :=
  ⟨rfl, by simp [specFullPhrase, List.intercalate]⟩

/-- Claim C3 witness. -/
theorem c3_first_term_only_witness :
    newRunSnippet [['a'], ['b']] ['a', 'b']
      = snippetRun (strToLower (([['a'], ['b']] : List Str).headD [])) ['a', 'b'] :=
  (c3_first_term_only [['a'], ['b']] ['a', 'b'] (by decide)).1

/-- Claim C4: the loop of `escapePhrase` compares the running index
with `len(term)-1` — the length of the current term — instead of
`len(terms)-1`, so `escapePhrase "a b"` yields `"a""b" ` (no space
between the quoted terms, one trailing space), not the documented
`"a" "b"`.  Empty input still yields the empty string. -/
theorem c4_escapePhrase_eval :
    escapePhrase ['a', ' ', 'b'] = ['"', 'a', '"', '"', 'b', '"', ' '] ∧
    escapePhrase ['a', ' ', 'b'] ≠ ['"', 'a', '"', ' ', '"', 'b', '"'] ∧
    escapePhrase [] = [] := by decide

/-- Claim C5, as stated, is false: with the only occurrence at offset
70 > 60 and `emitted = 0` the code still takes the new-window branch
`body[:0] + "<dnotehl>...</dnotehl>" + ...`, so the output *begins*
with the ellipsis marker, not with the literal context slice (the body
contains no `<` byte, so the leading 22 bytes can only be the inserted
marker). -/
theorem c5_counterexample :
    locStarts ['a', 'b'] lateFirstBody = [70] ∧
    60 < 70 ∧
    snippetRun ['a', 'b'] lateFirstBody = .ok lateFirstOut ∧
    lateFirstOut.take 22 = ellMark ∧
    '<' ∉ lateFirstBody := by decide

/-- Claim C5 (amended): the ellipsis marker is emitted at the opening
of *every* new window, including the first one when `emitted = 0`:
whenever the first occurrence starts more than 60 bytes into the body,
the extractor's output begins with the literal
`<dnotehl>...</dnotehl>`. -/
theorem c5_leading_ellipsis (p B : Str) (hp : p ≠ []) (i : Nat) (rest : List Nat)
    (hloc : locStarts p B = i :: rest) (hi : 60 < i) :
    snippetRun p B = .ok (flattenSegs (extractSegs p B)) ∧
    ellMark <+: flattenSegs (extractSegs p B) := by
  refine ⟨snippetRun_eq_segs p B hp, ?_⟩
  have hext : extractSegs p B = (ellSegs ++ [Seg.lit (seg B (i - 60) i)])
      ++ hlSegs (seg B i (i + p.length)) ++ buildSegs B p.length rest (i + p.length) := by
    unfold extractSegs
    rw [hloc]
    show (if 60 < i then ellSegs ++ [Seg.lit (seg B (i - 60) i)] else [Seg.lit (seg B 0 i)])
        ++ hlSegs (seg B i (i + p.length)) ++ buildSegs B p.length rest (i + p.length) = _
    rw [if_pos hi]
  rw [hext, flattenSegs_append, flattenSegs_append, flattenSegs_append,
    show flattenSegs ellSegs = ellMark from by decide,
    List.append_assoc, List.append_assoc]
  exact List.prefix_append _ _

/-- Claim C5 witness. -/
theorem c5_leading_ellipsis_witness :
    snippetRun ['a', 'b'] lateFirstBody
      = .ok (flattenSegs (extractSegs ['a', 'b'] lateFirstBody)) ∧
    ellMark <+: flattenSegs (extractSegs ['a', 'b'] lateFirstBody) :=
  c5_leading_ellipsis ['a', 'b'] lateFirstBody (by decide) 70 [] (by decide) (by decide)

/-- Claim C6, as stated, is false: a body containing the literal end
marker makes the output's marker population unbalanced — the scan sees
an end marker before any begin marker, and the counts differ. -/
theorem c6_counterexample :
    snippetRun ['z'] strayMarkerBody = .ok strayMarkerOut ∧
    (scanToks strayMarkerOut).count Tok.hlB ≠ (scanToks strayMarkerOut).count Tok.hlE ∧
    chkBal false (scanToks strayMarkerOut) = false := by decide

/-- Claim C6 (amended): for bodies that do not themselves contain
either marker literal, the extractor's output is balanced: scanning it
left to right, begin and end markers strictly alternate starting with a
begin marker and ending closed (`chkBal`), and the two marker counts
are equal. -/
theorem c6_marker_balance (p B : Str) (hp : p ≠ [])
    (h1 : hasOcc hbMark B = false) (h2 : hasOcc heMark B = false) :
    snippetRun p B = .ok (flattenSegs (extractSegs p B)) ∧
    chkBal false (scanToks (flattenSegs (extractSegs p B))) = true ∧
    (scanToks (flattenSegs (extractSegs p B))).count Tok.hlB
      = (scanToks (flattenSegs (extractSegs p B))).count Tok.hlE := by
  have hscan := scanToks_flatten _ (ScanOK_extractSegs p B h1 h2)
  refine ⟨snippetRun_eq_segs p B hp, ?_, ?_⟩
  · rw [hscan]
    exact chkBal_extractSegs p B
  · rw [hscan]
    exact count_extractSegs p B

/-- Claim C6 witness. -/
theorem c6_marker_balance_witness :
    snippetRun ['y'] ['x', 'y'] = .ok (flattenSegs (extractSegs ['y'] ['x', 'y'])) ∧
    chkBal false (scanToks (flattenSegs (extractSegs ['y'] ['x', 'y']))) = true ∧
    (scanToks (flattenSegs (extractSegs ['y'] ['x', 'y']))).count Tok.hlB
      = (scanToks (flattenSegs (extractSegs ['y'] ['x', 'y']))).count Tok.hlE :=
  c6_marker_balance ['y'] ['x', 'y'] (by decide) (by decide) (by decide)

/-- Claim C7, as stated, is false: with two windows the stripped output
is the concatenation of two non-adjacent stretches of the body — it
occurs nowhere in the (newline-normalized = unchanged) body as one
contiguous substring. -/
theorem c7_counterexample :
    locStarts ['a', 'b'] twoWindowBody = [0, 130] ∧
    snippetRun ['a', 'b'] twoWindowBody
      = .ok (flattenSegs (extractSegs ['a', 'b'] twoWindowBody)) ∧
    stripSegs (extractSegs ['a', 'b'] twoWindowBody) ≠ [] ∧
    hasOcc (stripSegs (extractSegs ['a', 'b'] twoWindowBody))
      (normalizeNewlines twoWindowBody) = false := by decide

/-- Claim C7 (amended): deleting every marker and every inserted
ellipsis from the extractor's output yields an in-order concatenation
of disjoint slices of the *raw* body — a sublist of it (a single
contiguous substring only when no window boundary intervenes; and of
the raw body, since the loop runs before newline normalization). -/
theorem c7_strip_sublist (p B : Str) (hp : p ≠ []) :
    snippetRun p B = .ok (flattenSegs (extractSegs p B)) ∧
    stripSegs (extractSegs p B) <+ B :=
  ⟨snippetRun_eq_segs p B hp, stripSegs_extractSegs p B⟩

/-- Claim C7 witness. -/
theorem c7_strip_sublist_witness :
    snippetRun ['a'] ['a'] = .ok (flattenSegs (extractSegs ['a'] ['a'])) ∧
    stripSegs (extractSegs ['a'] ['a']) <+ ['a'] :=
  c7_strip_sublist ['a'] ['a'] (by decide)

/-- Claim C8, as stated, is false: newline stripping happens in
`formatFTSSnippet`, *after* the snippet loop.  With body `a\nb` and
phrase `a b` the code finds no occurrence and outputs the normalized
but unmarked `a b`, while normalizing first would highlight the
occurrence. -/
theorem c8_counterexample :
    pipelineMarked ['a', ' ', 'b'] ['a', '\n', 'b'] = .ok ['a', ' ', 'b'] ∧
    pipelineMarked ['a', ' ', 'b'] ['a', '\n', 'b']
      ≠ snippetRun ['a', ' ', 'b'] (normalizeNewlines ['a', '\n', 'b']) := by decide

/-- Claim C8 (amended): occurrence location runs on the *raw* body and
its offsets refer to it; newline normalization is applied to the
marked-up output afterwards.  For newline-free bodies the two orders
coincide. -/
theorem c8_normalize_after (p B : Str) (hp : p ≠ []) (hn : '\n' ∉ B) :
    pipelineMarked p B = snippetRun p B ∧
    pipelineMarked p B = snippetRun p (normalizeNewlines B) := by
  have hout := snippetRun_eq_segs p B hp
  have hno : '\n' ∉ flattenSegs (extractSegs p B) := by
    intro hm
    rcases mem_flatten_extractSegs p B '\n' hm with h | h | h | h
    · exact hn h
    · exact absurd h (by decide)
    · exact absurd h (by decide)
    · exact absurd h (by decide)
  have h1 : pipelineMarked p B = snippetRun p B := by
    unfold pipelineMarked
    rw [hout]
    show RunRes.ok (normalizeNewlines (flattenSegs (extractSegs p B)))
        = RunRes.ok (flattenSegs (extractSegs p B))
    rw [normalize_eq_self _ hno]
  exact ⟨h1, by rw [normalize_eq_self B hn]; exact h1⟩

/-- Claim C8 witness. -/
theorem c8_normalize_after_witness :
    pipelineMarked ['a'] ['a', 'b'] = snippetRun ['a'] ['a', 'b'] ∧
    pipelineMarked ['a'] ['a', 'b'] = snippetRun ['a'] (normalizeNewlines ['a', 'b']) :=
  c8_normalize_after ['a'] ['a', 'b'] (by decide) (by decide)

/-- Claim C9: MatchLocator returns exactly the non-overlapping
left-to-right occurrences of the case-folded phrase in the case-folded
body: every reported range has the folded phrase's length and matches
there (also against the original body through folding), consecutive
ranges do not overlap, and every match position of the folded phrase is
covered by a reported range — none is missed. -/
theorem c9_matchLocator_spec (P B : Str) (hP : P ≠ []) :
    (∀ o ∈ matchLocator P B,
      o.2 = o.1 + (strToLower P).length ∧
      strToLower P <+: (strToLower B).drop o.1 ∧
      strToLower ((B.drop o.1).take (strToLower P).length) = strToLower P) ∧
    List.Chain' (fun a b => a.2 ≤ b.1) (matchLocator P B) ∧
    (∀ q, strToLower P <+: (strToLower B).drop q →
      ∃ o ∈ matchLocator P B, o.1 ≤ q ∧ q < o.2) := by
  have hlp : strToLower P ≠ [] := by
    intro h
    apply hP
    have hl := congrArg List.length h
    rw [strToLower_length] at hl
    exact List.length_eq_zero.mp hl
  refine ⟨?_, ?_, ?_⟩
  · intro o ho
    unfold matchLocator at ho
    obtain ⟨i, hi, rfl⟩ := List.mem_map.mp ho
    obtain ⟨h1, h2, h3⟩ := locAux_mem (strToLower B) (strToLower P) hlp _ 0 i hi
    refine ⟨rfl, h3, ?_⟩
    have ht := List.prefix_iff_eq_take.mp h3
    rw [strToLower_drop] at ht
    have hcomm : strToLower ((B.drop i).take (strToLower P).length)
        = (strToLower (B.drop i)).take (strToLower P).length := by
      simp [strToLower, List.map_take]
    rw [hcomm, ← ht]
  · unfold matchLocator locStarts
    rw [List.chain'_map]
    exact locAux_chain (strToLower B) (strToLower P) hlp _ 0
  · intro q hq
    rw [strToLower_drop] at hq
    obtain ⟨i, hi, ha, hb⟩ := locAux_complete (strToLower B) (strToLower P) hlp
      (B.length + 1) 0 q (by simp [strToLower_length]) (by omega)
      (by rw [strToLower_drop]; exact hq)
    exact ⟨(i, i + (strToLower P).length), List.mem_map_of_mem _ hi, ha, hb⟩

/-- Claim C9 witness. -/
theorem c9_matchLocator_spec_witness :
    (∀ o ∈ matchLocator ['A', 'b'] ['x', 'a', 'B', 'y', 'a', 'b'],
      o.2 = o.1 + (strToLower ['A', 'b']).length ∧
      strToLower ['A', 'b'] <+: (strToLower ['x', 'a', 'B', 'y', 'a', 'b']).drop o.1 ∧
      strToLower ((['x', 'a', 'B', 'y', 'a', 'b'].drop o.1).take
        (strToLower ['A', 'b']).length) = strToLower ['A', 'b']) ∧
    List.Chain' (fun a b => a.2 ≤ b.1) (matchLocator ['A', 'b'] ['x', 'a', 'B', 'y', 'a', 'b']) ∧
    (∀ q, strToLower ['A', 'b'] <+: (strToLower ['x', 'a', 'B', 'y', 'a', 'b']).drop q →
      ∃ o ∈ matchLocator ['A', 'b'] ['x', 'a', 'B', 'y', 'a', 'b'], o.1 ≤ q ∧ q < o.2) :=
  c9_matchLocator_spec ['A', 'b'] ['x', 'a', 'B', 'y', 'a', 'b'] (by decide)

/-- Claim C10: whatever the phrase (empty included), the body and the
fuel, every slice the loop takes is within the bounds of the current
body string, so the run never aborts on an out-of-range slice. -/
theorem c10_no_oob_slice (fuel : Nat) (p body : Str) :
    searchLoop p fuel body 0 (strIndex (strToLower body) p) ≠ RunRes.oob := by
  apply searchLoop_no_oob
  · omega
  · intro i hi
    obtain ⟨_, hb, _⟩ := strIndex_spec _ p hi
    rw [strToLower_length] at hb
    exact hb

/-- Claim C10 witness. -/
theorem c10_no_oob_slice_witness :
    searchLoop ['a'] 5 ['b', 'a'] 0 (strIndex (strToLower ['b', 'a']) ['a'])
      ≠ RunRes.oob :=
  c10_no_oob_slice 5 ['a'] ['b', 'a']

end Dnote
